import Mathlib

/-!
Verification development for the skill-gap-analysis engine
(`src/core/analysis.py` and `src/core/graph_analysis.py`).

Modelling conventions, shared by the whole file:

* Skill names and job identifiers are Python strings used as atoms: the code
  only compares them for equality (`set`, dict keys, `in`), sorts the two
  members of a pair lexicographically (`tuple(sorted([s1, s2]))`), and tests
  truthiness (`if s:`, false exactly for the empty string).  We model them as
  natural numbers, with `0` reserved for the empty string `""` (which is also
  the minimum of the lexicographic order, as `0` is of `ℕ`).  Any finite set
  of strings embeds into `ℕ` preserving equality, relative order and the
  emptiness test, so every behaviour the code exhibits on strings is realised
  by the model and vice versa.
* Python lists of skills are Lean `List ℕ`; `set(...)`  becomes `List.dedup`
  (only membership and cardinality of the result are ever used, so the
  iteration order of a Python set is irrelevant wherever it is applied).
* Fractional quantities (`match_ratio`, centralities) are computed in `ℚ`.
  The Python code computes them in IEEE floating point; every identity proved
  here only involves small integer ratios that float arithmetic represents
  exactly on the branches concerned, except where a comment states otherwise.
* `networkx` graphs built by the engine are simple undirected weighted graphs;
  we represent them concretely (node list plus edge list) and translate the
  library functions the code calls from the networkx sources.
-/

/-! ## Graph representation

A `networkx` graph as the engine uses it: a node list (insertion order) and a
list of undirected edges, each stored once with an integer weight (the
co-occurrence counter value; `add_edge(s1, s2, weight=w)`). -/

structure FGraph where
  nodes : List ℕ
  edges : List (ℕ × ℕ × ℕ)
deriving DecidableEq, Repr

/-- Adjacency test: an edge joins `a` and `b` in either stored orientation. -/
def FGraph.adj (G : FGraph) (a b : ℕ) : Bool :=
  G.edges.any (fun e => decide ((e.1 = a ∧ e.2.1 = b) ∨ (e.1 = b ∧ e.2.1 = a)))

/-- Weight lookup for the edge joining `a` and `b` (`G[a][b]["weight"]`):
`none` when no such edge exists. -/
def FGraph.adjWeight (G : FGraph) (a b : ℕ) : Option ℕ :=
  (G.edges.find? (fun e => decide ((e.1 = a ∧ e.2.1 = b) ∨ (e.1 = b ∧ e.2.1 = a)))).map
    (fun e => e.2.2)

/-- Edge weight with default `0` for a missing edge (only quoted for pairs
that are adjacent, where it is the stored counter value). -/
def FGraph.weight (G : FGraph) (a b : ℕ) : ℕ :=
  (G.adjWeight a b).getD 0

theorem FGraph.adj_iff (G : FGraph) (a b : ℕ) :
    G.adj a b = true ↔ ∃ e ∈ G.edges, (e.1 = a ∧ e.2.1 = b) ∨ (e.1 = b ∧ e.2.1 = a) := by
  simp [FGraph.adj, List.any_eq_true]

theorem FGraph.adj_comm (G : FGraph) (a b : ℕ) : G.adj a b = G.adj b a := by
  simp only [FGraph.adj]
  congr 1
  funext e
  simp [or_comm]

/-! ## build_skill_cooccurrence_graph (graph_analysis.py lines 45-82)

The Python function iterates over the postings; for each it normalizes the
skill field to a list, removes falsy entries and duplicates
(`list(set([s for s in skills if s]))`), and counts every unordered pair of
distinct skills of the posting under the canonical sorted key
(`tuple(sorted([skill1, skill2]))`) in a `Counter`.  Finally it adds one
weighted edge per counter key.  We model postings after the list/str
normalization (both Python representations are normalized to a list before
this point, graph_analysis.py lines 63-67), so a posting is a `List ℕ`. -/

/-- Normalization applied to one posting by the co-occurrence builder:
`list(set([s for s in skills if s]))` — drop falsy (empty-string, i.e. `0`)
entries and duplicates (graph_analysis.py line 70). -/
def normalizeSkills (skills : List ℕ) : List ℕ :=
  (skills.filter (fun s => decide (s ≠ 0))).dedup

/-- All index-ordered pairs of a list: `for i, s1 in enumerate(l): for s2 in
l[i+1:]` (graph_analysis.py lines 73-74). -/
def indexPairs : List ℕ → List (ℕ × ℕ)
  | [] => []
  | x :: xs => xs.map (fun y => (x, y)) ++ indexPairs xs

/-- Canonical key of an unordered pair: `tuple(sorted([s1, s2]))`
(graph_analysis.py line 75). -/
def sortPair (p : ℕ × ℕ) : ℕ × ℕ :=
  if p.1 ≤ p.2 then p else (p.2, p.1)

/-- The multiset of canonical pair keys contributed by one posting. -/
def postingPairs (skills : List ℕ) : List (ℕ × ℕ) :=
  (indexPairs (normalizeSkills skills)).map sortPair

/-- Value of the co-occurrence `Counter` at a canonical key after all
postings have been processed (graph_analysis.py lines 60-76). -/
def cooccurrence (postings : List (List ℕ)) (key : ℕ × ℕ) : ℕ :=
  (postings.map (fun p => (postingPairs p).count key)).sum

/-- Keys of the co-occurrence `Counter`, in first-encounter order. -/
def cooccurrenceKeys (postings : List (List ℕ)) : List (ℕ × ℕ) :=
  (postings.flatMap postingPairs).dedup

/-- Translation of `build_skill_cooccurrence_graph` (graph_analysis.py lines
45-82): one weighted edge per counter key; the node set of the networkx graph
is exactly the set of edge endpoints in first-encounter order, because nodes
are only ever created implicitly by `G.add_edge`. -/
def build_skill_cooccurrence_graph (postings : List (List ℕ)) : FGraph :=
  { nodes := ((cooccurrenceKeys postings).flatMap (fun k => [k.1, k.2])).dedup,
    edges := (cooccurrenceKeys postings).map (fun k => (k.1, k.2, cooccurrence postings k)) }

/-! ### Counting lemmas for the co-occurrence builder -/

theorem mem_indexPairs {l : List ℕ} {x y : ℕ} :
    (x, y) ∈ indexPairs l ↔ ∃ l₁ l₂ l₃, l = l₁ ++ x :: l₂ ++ y :: l₃ := by
  induction l with
  | nil => simp [indexPairs]
  | cons a as ih =>
    simp only [indexPairs, List.mem_append, List.mem_map, ih]
    constructor
    · rintro (⟨b, hb, h⟩ | ⟨l₁, l₂, l₃, h⟩)
      · injection h with h1 h2
        subst h1
        subst h2
        obtain ⟨l₂, l₃, rfl⟩ := List.append_of_mem hb
        exact ⟨[], l₂, l₃, rfl⟩
      · exact ⟨a :: l₁, l₂, l₃, by simp [h]⟩
    · rintro ⟨l₁, l₂, l₃, h⟩
      cases l₁ with
      | nil =>
        left
        simp only [List.nil_append, List.cons.injEq] at h
        obtain ⟨rfl, rfl⟩ := h
        exact ⟨y, by simp, rfl⟩
      | cons c cs =>
        right
        simp only [List.cons_append, List.cons.injEq] at h
        exact ⟨cs, l₂, l₃, h.2⟩

theorem indexPairs_ne {l : List ℕ} (hl : l.Nodup) {x y : ℕ} (h : (x, y) ∈ indexPairs l) :
    x ≠ y := by
  obtain ⟨l₁, l₂, l₃, rfl⟩ := mem_indexPairs.mp h
  intro hxy
  subst hxy
  have hd := List.disjoint_of_nodup_append hl
  exact hd (show x ∈ l₁ ++ x :: l₂ by simp) (show x ∈ x :: l₃ by simp)

theorem count_map_eq_countP {α β : Type} [BEq β] [LawfulBEq β]
    (f : α → β) (l : List α) (b : β) :
    (l.map f).count b = l.countP (fun a => f a == b) := by
  induction l with
  | nil => rfl
  | cons x xs ih =>
    by_cases h : f x = b <;>
      simp [List.count_cons, List.countP_cons, h, ih]

theorem sortPair_eq_iff {a b x y : ℕ} (hab : a < b) :
    sortPair (x, y) = (a, b) ↔ (x = a ∧ y = b) ∨ (x = b ∧ y = a) := by
  unfold sortPair
  by_cases h : x ≤ y
  · simp only [if_pos h, Prod.mk.injEq]
    constructor
    · rintro ⟨rfl, rfl⟩; exact Or.inl ⟨rfl, rfl⟩
    · rintro (⟨rfl, rfl⟩ | ⟨rfl, rfl⟩)
      · exact ⟨rfl, rfl⟩
      · exact absurd (lt_of_lt_of_le hab h) (lt_irrefl _)
  · simp only [if_neg h, Prod.mk.injEq]
    constructor
    · rintro ⟨rfl, rfl⟩; exact Or.inr ⟨rfl, rfl⟩
    · rintro (⟨rfl, rfl⟩ | ⟨rfl, rfl⟩)
      · exact absurd hab (not_lt.mpr (le_of_not_le h))
      · exact ⟨rfl, rfl⟩

/-- Core counting fact: over a duplicate-free list, the canonical key of a
pair of distinct elements is produced exactly once when both are present and
never otherwise. -/
theorem count_indexPairs_sortPair {l : List ℕ} (hl : l.Nodup) {a b : ℕ} (hab : a < b) :
    ((indexPairs l).map sortPair).count (a, b) = if a ∈ l ∧ b ∈ l then 1 else 0 := by
  induction l with
  | nil => simp [indexPairs]
  | cons x xs ih =>
    have hx : x ∉ xs := (List.nodup_cons.mp hl).1
    have hxs : xs.Nodup := (List.nodup_cons.mp hl).2
    have hcount₂ := ih hxs
    simp only [indexPairs, List.map_append, List.count_append]
    have hmapmap : (xs.map (fun y => (x, y))).map sortPair = xs.map (fun y => sortPair (x, y)) := by
      simp [List.map_map, Function.comp]
    rw [hmapmap, count_map_eq_countP, hcount₂]
    by_cases hxa : x = a
    · subst hxa
      have : ∀ y : ℕ, (sortPair (x, y) = (x, b)) ↔ y = b := by
        intro y
        rw [sortPair_eq_iff hab]
        constructor
        · rintro (⟨-, rfl⟩ | ⟨hxb, -⟩)
          · rfl
          · exact absurd hxb (ne_of_lt hab)
        · rintro rfl; exact Or.inl ⟨rfl, rfl⟩
      have hc1 : xs.countP (fun y => sortPair (x, y) == (x, b)) = xs.count b := by
        rw [List.count]
        apply List.countP_congr
        intro y _
        simp [this y]
      rw [hc1]
      by_cases hbxs : b ∈ xs
      · rw [List.count_eq_one_of_mem hxs hbxs]
        simp [hx, hbxs, ne_of_lt hab]
      · rw [List.count_eq_zero.mpr hbxs]
        have hbx : b ≠ x := fun h => (ne_of_lt hab) h.symm
        simp [hx, hbxs, hbx]
    · by_cases hxb : x = b
      · subst hxb
        have : ∀ y : ℕ, (sortPair (x, y) = (a, x)) ↔ y = a := by
          intro y
          rw [sortPair_eq_iff hab]
          constructor
          · rintro (⟨hxa2, -⟩ | ⟨-, rfl⟩)
            · exact absurd hxa2 hxa
            · rfl
          · rintro rfl; exact Or.inr ⟨rfl, rfl⟩
        have hc1 : xs.countP (fun y => sortPair (x, y) == (a, x)) = xs.count a := by
          rw [List.count]
          apply List.countP_congr
          intro y _
          simp [this y]
        rw [hc1]
        by_cases haxs : a ∈ xs
        · rw [List.count_eq_one_of_mem hxs haxs]
          simp [hx, haxs, hxa, Ne.symm hxa]
        · rw [List.count_eq_zero.mpr haxs]
          simp [hx, haxs, hxa, Ne.symm hxa]
      · have hc0 : xs.countP (fun y => sortPair (x, y) == (a, b)) = 0 := by
          rw [List.countP_eq_zero]
          intro y _
          simp only [beq_iff_eq]
          rw [sortPair_eq_iff hab]
          rintro (⟨rfl, -⟩ | ⟨rfl, -⟩)
          · exact hxa rfl
          · exact hxb rfl
        rw [hc0]
        simp [Ne.symm hxa, Ne.symm hxb]

theorem mem_normalizeSkills {p : List ℕ} {a : ℕ} :
    a ∈ normalizeSkills p ↔ a ∈ p ∧ a ≠ 0 := by
  simp [normalizeSkills]

theorem normalizeSkills_nodup (p : List ℕ) : (normalizeSkills p).Nodup :=
  List.nodup_dedup _

theorem mem_of_mem_indexPairs {l : List ℕ} {x y : ℕ} (h : (x, y) ∈ indexPairs l) :
    x ∈ l ∧ y ∈ l := by
  obtain ⟨l₁, l₂, l₃, rfl⟩ := mem_indexPairs.mp h
  constructor <;> simp

theorem sum_ite_one_eq_length_filter {α : Type} (l : List α) (P : α → Prop) [DecidablePred P] :
    (l.map (fun p => if P p then (1 : ℕ) else 0)).sum = (l.filter (fun p => decide (P p))).length := by
  induction l with
  | nil => rfl
  | cons x xs ih =>
    by_cases h : P x <;> simp [h, ih] <;> omega

/-- Per-posting contribution: a canonical pair of distinct nonempty skills is
counted once per posting containing both of them, never more. -/
theorem count_postingPairs {p : List ℕ} {a b : ℕ} (hab : a < b) :
    (postingPairs p).count (a, b) =
      if (a ∈ p ∧ a ≠ 0) ∧ (b ∈ p ∧ b ≠ 0) then 1 else 0 := by
  show ((indexPairs (normalizeSkills p)).map sortPair).count (a, b) = _
  rw [count_indexPairs_sortPair (normalizeSkills_nodup p) hab]
  by_cases h : (a ∈ p ∧ a ≠ 0) ∧ (b ∈ p ∧ b ≠ 0)
  · rw [if_pos h, if_pos ⟨mem_normalizeSkills.mpr h.1, mem_normalizeSkills.mpr h.2⟩]
  · rw [if_neg h, if_neg]
    rw [mem_normalizeSkills, mem_normalizeSkills]
    exact h

/-- Counter value for a canonical key: the number of postings containing both
skills (duplicate mentions inside one posting count once). -/
theorem cooccurrence_eq {postings : List (List ℕ)} {a b : ℕ} (hab : a < b) :
    cooccurrence postings (a, b) =
      (postings.filter (fun p => decide ((a ∈ p ∧ a ≠ 0) ∧ (b ∈ p ∧ b ≠ 0)))).length := by
  unfold cooccurrence
  rw [List.map_congr_left (fun p _ => count_postingPairs hab)]
  exact sum_ite_one_eq_length_filter postings _

theorem sortPair_eq_left {a b : ℕ} (h : a ≤ b) : sortPair (a, b) = (a, b) := by
  simp [sortPair, h]

theorem sortPair_eq_right {a b : ℕ} (h : b < a) : sortPair (a, b) = (b, a) := by
  simp [sortPair, not_le.mpr h]

theorem cooccurrence_sortPair_eq {postings : List (List ℕ)} {a b : ℕ}
    (hab : a ≠ b) (ha : a ≠ 0) (hb : b ≠ 0) :
    cooccurrence postings (sortPair (a, b)) =
      (postings.filter (fun p => decide (a ∈ p ∧ b ∈ p))).length := by
  have congrF : ∀ (c d : ℕ), c ≠ 0 → d ≠ 0 →
      (postings.filter (fun p => decide ((c ∈ p ∧ c ≠ 0) ∧ (d ∈ p ∧ d ≠ 0)))).length =
        (postings.filter (fun p => decide (c ∈ p ∧ d ∈ p))).length := by
    intro c d hc hd
    apply congrArg List.length
    apply List.filter_congr
    intro p _
    simp [hc, hd]
  rcases lt_or_gt_of_ne hab with h | h
  · rw [sortPair_eq_left (le_of_lt h), cooccurrence_eq h, congrF a b ha hb]
  · rw [sortPair_eq_right h, cooccurrence_eq h, congrF b a hb ha]
    apply congrArg List.length
    apply List.filter_congr
    intro p _
    simp [and_comm]

/-- Every counter key is strictly sorted: the two skills of a key are distinct
(no self-loop is ever counted) and stored in canonical order. -/
theorem cooccurrenceKeys_lt {postings : List (List ℕ)} {k : ℕ × ℕ}
    (h : k ∈ cooccurrenceKeys postings) : k.1 < k.2 := by
  rw [cooccurrenceKeys, List.mem_dedup, List.mem_flatMap] at h
  obtain ⟨p, -, hk⟩ := h
  rw [postingPairs, List.mem_map] at hk
  obtain ⟨⟨x, y⟩, hxy, rfl⟩ := hk
  have hne : x ≠ y := indexPairs_ne (normalizeSkills_nodup p) hxy
  rcases lt_or_gt_of_ne hne with hlt | hgt
  · rw [sortPair_eq_left (le_of_lt hlt)]; exact hlt
  · rw [sortPair_eq_right hgt]; exact hgt

theorem cooccurrence_pos_iff {postings : List (List ℕ)} {k : ℕ × ℕ} :
    0 < cooccurrence postings k ↔ k ∈ cooccurrenceKeys postings := by
  rw [cooccurrenceKeys, List.mem_dedup, List.mem_flatMap, cooccurrence]
  rw [Nat.pos_iff_ne_zero, Ne, List.sum_eq_zero_iff]
  simp only [List.mem_map, not_forall]
  constructor
  · rintro ⟨x, ⟨p, hp, rfl⟩, hx⟩
    exact ⟨p, hp, List.count_pos_iff.mp (Nat.pos_of_ne_zero hx)⟩
  · rintro ⟨p, hp, hk⟩
    exact ⟨(postingPairs p).count k, ⟨p, hp, rfl⟩,
      Nat.pos_iff_ne_zero.mp (List.count_pos_iff.mpr hk)⟩

/-- Adjacency in the built graph: exactly the canonical counter keys. -/
theorem cooccur_adj_iff {postings : List (List ℕ)} {a b : ℕ} :
    (build_skill_cooccurrence_graph postings).adj a b = true ↔
      a ≠ b ∧ sortPair (a, b) ∈ cooccurrenceKeys postings := by
  rw [FGraph.adj_iff]
  constructor
  · rintro ⟨e, he, hor⟩
    rw [build_skill_cooccurrence_graph, List.mem_map] at he
    obtain ⟨k, hk, rfl⟩ := he
    have hklt := cooccurrenceKeys_lt hk
    rcases hor with ⟨h1, h2⟩ | ⟨h1, h2⟩
    · simp only at h1 h2
      subst h1; subst h2
      exact ⟨ne_of_lt hklt, by rwa [sortPair_eq_left (le_of_lt hklt), Prod.mk.eta]⟩
    · simp only at h1 h2
      subst h1; subst h2
      exact ⟨Ne.symm (ne_of_lt hklt), by rwa [sortPair_eq_right hklt, Prod.mk.eta]⟩
  · rintro ⟨hne, hk⟩
    refine ⟨(((sortPair (a, b)).1, (sortPair (a, b)).2, cooccurrence postings (sortPair (a, b)))), ?_, ?_⟩
    · rw [build_skill_cooccurrence_graph, List.mem_map]
      exact ⟨sortPair (a, b), hk, rfl⟩
    · rcases lt_or_gt_of_ne hne with h | h
      · rw [sortPair_eq_left (le_of_lt h)]
        exact Or.inl ⟨rfl, rfl⟩
      · rw [sortPair_eq_right h]
        exact Or.inr ⟨rfl, rfl⟩

/-- Weight in the built graph: the counter value of the canonical key. -/
theorem cooccur_weight_eq {postings : List (List ℕ)} {a b : ℕ} (hab : a ≠ b) :
    (build_skill_cooccurrence_graph postings).weight a b =
      cooccurrence postings (sortPair (a, b)) := by
  rw [FGraph.weight, FGraph.adjWeight]
  by_cases hk : sortPair (a, b) ∈ cooccurrenceKeys postings
  · have hmem : ((sortPair (a, b)).1, (sortPair (a, b)).2, cooccurrence postings (sortPair (a, b))) ∈
        (build_skill_cooccurrence_graph postings).edges := by
      rw [build_skill_cooccurrence_graph, List.mem_map]
      exact ⟨sortPair (a, b), hk, rfl⟩
    have hpred : ∃ e ∈ (build_skill_cooccurrence_graph postings).edges,
        (decide ((e.1 = a ∧ e.2.1 = b) ∨ (e.1 = b ∧ e.2.1 = a))) = true := by
      refine ⟨_, hmem, ?_⟩
      simp only [decide_eq_true_eq]
      rcases lt_or_gt_of_ne hab with h | h
      · rw [sortPair_eq_left (le_of_lt h)]
        exact Or.inl ⟨rfl, rfl⟩
      · rw [sortPair_eq_right h]
        exact Or.inr ⟨rfl, rfl⟩
    rcases hfind : (build_skill_cooccurrence_graph postings).edges.find?
        (fun e => decide ((e.1 = a ∧ e.2.1 = b) ∨ (e.1 = b ∧ e.2.1 = a))) with _ | e
    · rw [List.find?_eq_none] at hfind
      obtain ⟨e, he, hpe⟩ := hpred
      exact absurd hpe (by simpa using hfind e he)
    · have hpe := List.find?_some hfind
      have hein := List.mem_of_find?_eq_some hfind
      rw [build_skill_cooccurrence_graph, List.mem_map] at hein
      obtain ⟨k, hkin, rfl⟩ := hein
      have hklt := cooccurrenceKeys_lt hkin
      simp only [decide_eq_true_eq] at hpe
      rw [hfind]
      show cooccurrence postings k = cooccurrence postings (sortPair (a, b))
      rcases hpe with ⟨h1, h2⟩ | ⟨h1, h2⟩
      · have hk1 : k.1 = a := h1
        have hk2 : k.2 = b := h2
        have hab' : a < b := by rw [← hk1, ← hk2]; exact hklt
        have hsk : sortPair (a, b) = k := by
          rw [sortPair_eq_left (le_of_lt hab'), ← hk1, ← hk2]
        rw [hsk]
      · have hk1 : k.1 = b := h1
        have hk2 : k.2 = a := h2
        have hab' : b < a := by rw [← hk1, ← hk2]; exact hklt
        have hsk : sortPair (a, b) = k := by
          rw [sortPair_eq_right hab', ← hk1, ← hk2]
        rw [hsk]
  · have hco : cooccurrence postings (sortPair (a, b)) = 0 := by
      by_contra hco
      exact hk (cooccurrence_pos_iff.mp (Nat.pos_of_ne_zero hco))
    rw [hco]
    rcases hfind : (build_skill_cooccurrence_graph postings).edges.find?
        (fun e => decide ((e.1 = a ∧ e.2.1 = b) ∨ (e.1 = b ∧ e.2.1 = a))) with _ | e
    · rw [hfind]
      rfl
    · exfalso
      have hpe := List.find?_some hfind
      have hein := List.mem_of_find?_eq_some hfind
      rw [build_skill_cooccurrence_graph, List.mem_map] at hein
      obtain ⟨k, hkin, rfl⟩ := hein
      have hklt := cooccurrenceKeys_lt hkin
      simp only [decide_eq_true_eq] at hpe
      apply hk
      rcases hpe with ⟨h1, h2⟩ | ⟨h1, h2⟩
      · have hk1 : k.1 = a := h1
        have hk2 : k.2 = b := h2
        have hab' : a < b := by rw [← hk1, ← hk2]; exact hklt
        have hsk : sortPair (a, b) = k := by
          rw [sortPair_eq_left (le_of_lt hab'), ← hk1, ← hk2]
        rw [hsk]
        exact hkin
      · have hk1 : k.1 = b := h1
        have hk2 : k.2 = a := h2
        have hab' : b < a := by rw [← hk1, ← hk2]; exact hklt
        have hsk : sortPair (a, b) = k := by
          rw [sortPair_eq_right hab', ← hk1, ← hk2]
        rw [hsk]
        exact hkin

/-- C1.  The co-occurrence graph built by `build_skill_cooccurrence_graph` is
undirected and self-loop-free; an edge between two distinct (nonempty-named)
skills exists iff at least one posting contains both; its weight is exactly
the number of postings containing both (duplicates inside a posting counted
once); and every existing edge has weight at least 1. -/
theorem cooccurrence_graph_correct (postings : List (List ℕ)) :
    (∀ a, (build_skill_cooccurrence_graph postings).adj a a = false) ∧
    (∀ a b, (build_skill_cooccurrence_graph postings).adj a b =
        (build_skill_cooccurrence_graph postings).adj b a ∧
      (build_skill_cooccurrence_graph postings).weight a b =
        (build_skill_cooccurrence_graph postings).weight b a) ∧
    (∀ a b, a ≠ b → a ≠ 0 → b ≠ 0 →
      ((build_skill_cooccurrence_graph postings).adj a b = true ↔
        ∃ p ∈ postings, a ∈ p ∧ b ∈ p)) ∧
    (∀ a b, a ≠ b → a ≠ 0 → b ≠ 0 →
      (build_skill_cooccurrence_graph postings).weight a b =
        (postings.filter (fun p => decide (a ∈ p ∧ b ∈ p))).length) ∧
    (∀ a b, (build_skill_cooccurrence_graph postings).adj a b = true →
      1 ≤ (build_skill_cooccurrence_graph postings).weight a b) := by
  refine ⟨?_, ?_, ?_, ?_, ?_⟩
  · intro a
    by_contra h
    have := cooccur_adj_iff.mp (by simpa using h)
    exact this.1 rfl
  · intro a b
    constructor
    · exact FGraph.adj_comm _ a b
    · by_cases hab : a = b
      · subst hab; rfl
      · rw [cooccur_weight_eq hab, cooccur_weight_eq (Ne.symm hab)]
        have : sortPair (a, b) = sortPair (b, a) := by
          rcases lt_or_gt_of_ne hab with h | h
          · rw [sortPair_eq_left (le_of_lt h), sortPair_eq_right h]
          · rw [sortPair_eq_right h, sortPair_eq_left (le_of_lt h)]
        rw [this]
  · intro a b hab ha hb
    rw [cooccur_adj_iff]
    constructor
    · rintro ⟨-, hk⟩
      have hpos := cooccurrence_pos_iff.mpr hk
      rw [cooccurrence_sortPair_eq hab ha hb] at hpos
      obtain ⟨p, hp⟩ := List.exists_mem_of_length_pos hpos
      rw [List.mem_filter] at hp
      exact ⟨p, hp.1, by simpa using hp.2⟩
    · rintro ⟨p, hp, hap, hbp⟩
      refine ⟨hab, cooccurrence_pos_iff.mp ?_⟩
      rw [cooccurrence_sortPair_eq hab ha hb]
      have : p ∈ postings.filter (fun p => decide (a ∈ p ∧ b ∈ p)) :=
        List.mem_filter.mpr ⟨hp, by simp [hap, hbp]⟩
      exact List.length_pos_of_mem this
  · intro a b hab ha hb
    rw [cooccur_weight_eq hab, cooccurrence_sortPair_eq hab ha hb]
  · intro a b hadj
    obtain ⟨hab, hk⟩ := cooccur_adj_iff.mp hadj
    rw [cooccur_weight_eq hab]
    exact cooccurrence_pos_iff.mpr hk

/-- Witness for C1 on the spec example corpus (skills renamed 1 = Python,
2 = SQL, 3 = Excel): the triangle has edge (1,2) with weight exactly 1. -/
theorem cooccurrence_graph_correct_witness :
    (build_skill_cooccurrence_graph [[1, 2], [1, 3], [2, 3]]).weight 1 2 = 1 ∧
    (build_skill_cooccurrence_graph [[1, 2], [1, 3], [2, 3]]).adj 1 2 = true := by
  have h := cooccurrence_graph_correct [[1, 2], [1, 3], [2, 3]]
  constructor
  · rw [h.2.2.2.1 1 2 (by decide) (by decide) (by decide)]
    decide
  · exact (h.2.2.1 1 2 (by decide) (by decide) (by decide)).mpr
      ⟨[1, 2], by simp, by decide, by decide⟩

/-! ## compute_centralities (graph_analysis.py lines 85-152)

The function delegates to networkx; we translate the networkx algorithms
(from the library sources) in exact rational arithmetic:

* `nx.degree_centrality`: degree divided by (node count - 1), except that a
  graph with at most one node yields 1 for every node (the `len(G) <= 1`
  branch of the library function).
* `nx.betweenness_centrality(weight="weight")`: for every ordered pair of
  distinct endpoints different from the measured node, the fraction of
  minimum-weight paths passing strictly through it, rescaled by
  1/((n-1)(n-2)) for n > 2 (the `normalized=True` default).  Dijkstra with
  positive integer weights counts exactly the minimum-weight simple paths,
  which we enumerate explicitly.  The source skips the call entirely on an
  edgeless graph and zero-fills (graph_analysis.py lines 109-115).
* `nx.closeness_centrality(distance="weight")` with the default
  `wf_improved=True`: with `sp` the distance map from the node,
  ((|sp|-1)/sum(sp)) * ((|sp|-1)/(n-1)), and 0 when the distance sum is 0 or
  the graph has at most one node.  The try/except fallbacks of
  graph_analysis.py lines 118-124 are unreachable for well-formed graphs
  (the library call does not raise on disconnected graphs), so the model is
  the first attempt.
* weighted degree `dict(graph.degree(weight="weight"))`: sum of incident
  edge weights, or the plain neighbour count when the graph carries no
  weights (`has_weights` is false exactly when the edge list is empty,
  graph_analysis.py lines 102-106).
* `nx.eigenvector_centrality` is floating-point power iteration with an
  L2 normalization (an irrational square root) and a convergence tolerance;
  its exact value is not representable in this model and the eigenvector
  column is therefore not modelled.  None of the theorems below quote it.

The graphs this engine receives are simple (no self-loops, each undirected
edge stored once, endpoints inside the node list) with positive weights;
hypotheses state what each theorem needs. -/

/-- Neighbour list of `v`: the nodes adjacent to it, in node-list order. -/
def FGraph.neighbors (G : FGraph) (v : ℕ) : List ℕ :=
  G.nodes.filter (fun u => G.adj v u)

/-- Degree of `v` (`G.degree`): number of adjacent nodes (simple graph). -/
def FGraph.degree (G : FGraph) (v : ℕ) : ℕ :=
  (G.neighbors v).length

/-- Translation of `nx.degree_centrality` including its `len(G) <= 1`
branch, which returns 1 (not 0) for every node of a tiny graph. -/
def degreeCentrality (G : FGraph) (v : ℕ) : ℚ :=
  if G.nodes.length ≤ 1 then 1
  else (G.degree v : ℚ) / ((G.nodes.length : ℚ) - 1)

/-- All simple paths from `s` to `t` of at most `fuel` edges: the search tree
of Dijkstra-style traversal.  A path is the list of visited nodes, starting
at `s`; recursion extends by one adjacent unvisited node. -/
def pathsAux (G : FGraph) : ℕ → ℕ → ℕ → List ℕ → List (List ℕ)
  | 0, s, t, _ => if s = t then [[s]] else []
  | fuel + 1, s, t, visited =>
    if s = t then [[s]]
    else ((G.neighbors s).filter (fun u => decide (u ∉ s :: visited))).flatMap
      (fun u => (pathsAux G fuel u t (s :: visited)).map (fun p => s :: p))

/-- All simple paths between two nodes (fuel = node count suffices). -/
def stPaths (G : FGraph) (s t : ℕ) : List (List ℕ) :=
  pathsAux G G.nodes.length s t []

/-- Total weight of a path (sum of edge weights along it). -/
def pathWeight (G : FGraph) : List ℕ → ℕ
  | [] => 0
  | [_] => 0
  | a :: b :: rest => G.weight a b + pathWeight G (b :: rest)

/-- Weighted shortest-path distance (`none` when unreachable). -/
def distOpt (G : FGraph) (s t : ℕ) : Option ℕ :=
  ((stPaths G s t).map (pathWeight G)).min?

/-- Number of minimum-weight `s`-`t` paths (`sigma` in Brandes). -/
def sigma (G : FGraph) (s t : ℕ) : ℕ :=
  match distOpt G s t with
  | none => 0
  | some d => ((stPaths G s t).filter (fun p => pathWeight G p == d)).length

/-- Number of minimum-weight `s`-`t` paths passing strictly through `v`. -/
def sigmaVia (G : FGraph) (s t v : ℕ) : ℕ :=
  match distOpt G s t with
  | none => 0
  | some d => ((stPaths G s t).filter
      (fun p => pathWeight G p == d && decide (v ∈ p) && v != s && v != t)).length

/-- Dependency of the pair `(s, t)` on `v`: fraction of shortest paths
through `v` (0 when `t` is unreachable from `s`). -/
def pairDependency (G : FGraph) (s t v : ℕ) : ℚ :=
  if sigma G s t = 0 then 0 else (sigmaVia G s t v : ℚ) / (sigma G s t : ℚ)

/-- Unscaled betweenness: dependencies accumulated over all ordered pairs of
endpoints distinct from each other and from `v` (Brandes accumulation). -/
def betweennessRaw (G : FGraph) (v : ℕ) : ℚ :=
  (G.nodes.flatMap (fun s => G.nodes.map (fun t =>
    if s ≠ v ∧ t ≠ v ∧ s ≠ t then pairDependency G s t v else 0))).sum

/-- Translation of `nx.betweenness_centrality` with its default rescaling
(`normalized=True`: factor 1/((n-1)(n-2)) when n > 2, no rescale otherwise). -/
def betweennessCentrality (G : FGraph) (v : ℕ) : ℚ :=
  if 2 < G.nodes.length then
    betweennessRaw G v / (((G.nodes.length : ℚ) - 1) * ((G.nodes.length : ℚ) - 2))
  else betweennessRaw G v

/-- Distance map from `v` (`sp` in `nx.closeness_centrality`): every node at
finite weighted distance, with that distance. -/
def spDict (G : FGraph) (v : ℕ) : List (ℕ × ℕ) :=
  G.nodes.filterMap (fun u => (distOpt G v u).map (fun d => (u, d)))

/-- Translation of `nx.closeness_centrality` (default `wf_improved=True`). -/
def closenessCentrality (G : FGraph) (v : ℕ) : ℚ :=
  let sp := spDict G v
  let totsp : ℕ := (sp.map (fun e => e.2)).sum
  if 0 < totsp ∧ 1 < G.nodes.length then
    (((sp.length : ℚ) - 1) / (totsp : ℚ)) * (((sp.length : ℚ) - 1) / ((G.nodes.length : ℚ) - 1))
  else 0

/-- Weighted degree `dict(graph.degree(weight="weight"))`: sum of incident
edge weights; plain degree when the graph carries no weights, i.e. when the
edge list is empty (graph_analysis.py lines 102-106 and 136-139). -/
def weightedDegree (G : FGraph) (v : ℕ) : ℚ :=
  if G.edges.isEmpty then (G.degree v : ℚ)
  else ((G.edges.map (fun e =>
    (if e.1 = v then e.2.2 else 0) + (if e.2.1 = v then e.2.2 else 0))).sum : ℕ)

/-- Row of the centrality table (the eigenvector column is not modelled, see
the section comment). -/
structure CentRow where
  node : ℕ
  degree : ℚ
  betweenness : ℚ
  closeness : ℚ
  weighted_degree : ℚ
deriving DecidableEq, Repr

/-- Translation of `compute_centralities` (graph_analysis.py lines 85-152):
empty table on an empty graph; otherwise one row per node with the measures
above (betweenness zero-filled without calling the algorithm when the graph
has no edges, lines 109-115), sorted by descending degree centrality
(`sort_values("degree", ascending=False)`; tie order is implementation
defined in pandas, so no theorem below depends on it). -/
def centRowOf (G : FGraph) (v : ℕ) : CentRow :=
  { node := v,
    degree := degreeCentrality G v,
    betweenness := if G.edges.isEmpty then 0 else betweennessCentrality G v,
    closeness := closenessCentrality G v,
    weighted_degree := weightedDegree G v }

def compute_centralities (G : FGraph) : List CentRow :=
  if G.nodes.length = 0 then []
  else (G.nodes.map (centRowOf G)).insertionSort (fun a b => b.degree ≤ a.degree)

/-! ### Isolated nodes in the centrality table -/

/-- A node with no incident edge. -/
def FGraph.isolated (G : FGraph) (v : ℕ) : Prop :=
  ∀ e ∈ G.edges, e.1 ≠ v ∧ e.2.1 ≠ v

instance (G : FGraph) (v : ℕ) : Decidable (G.isolated v) := by
  unfold FGraph.isolated
  infer_instance

theorem isolated_adj_fst {G : FGraph} {v : ℕ} (h : G.isolated v) (u : ℕ) :
    G.adj v u = false := by
  rw [FGraph.adj, List.any_eq_false]
  intro e he
  simp only [decide_eq_true_eq]
  rintro (⟨h1, -⟩ | ⟨-, h2⟩)
  · exact (h e he).1 h1
  · exact (h e he).2 h2

theorem isolated_adj_snd {G : FGraph} {v : ℕ} (h : G.isolated v) (u : ℕ) :
    G.adj u v = false := by
  rw [FGraph.adj_comm]
  exact isolated_adj_fst h u

theorem isolated_neighbors {G : FGraph} {v : ℕ} (h : G.isolated v) :
    G.neighbors v = [] := by
  rw [FGraph.neighbors, List.filter_eq_nil_iff]
  intro u _
  simp [isolated_adj_fst h u]

theorem isolated_degree {G : FGraph} {v : ℕ} (h : G.isolated v) : G.degree v = 0 := by
  rw [FGraph.degree, isolated_neighbors h]
  rfl

/-- Every node on a generated path is the source or has an incident edge. -/
theorem pathsAux_mem_adj {G : FGraph} :
    ∀ (fuel s t : ℕ) (visited : List ℕ) (p : List ℕ), p ∈ pathsAux G fuel s t visited →
      ∀ x ∈ p, x = s ∨ ∃ u, G.adj u x = true := by
  intro fuel
  induction fuel with
  | zero =>
    intro s t visited p hp x hx
    rw [pathsAux] at hp
    by_cases hst : s = t
    · rw [if_pos hst] at hp
      simp only [List.mem_singleton] at hp
      subst hp
      simp only [List.mem_singleton] at hx
      exact Or.inl hx
    · rw [if_neg hst] at hp
      simp at hp
  | succ n ih =>
    intro s t visited p hp x hx
    rw [pathsAux] at hp
    by_cases hst : s = t
    · rw [if_pos hst] at hp
      simp only [List.mem_singleton] at hp
      subst hp
      simp only [List.mem_singleton] at hx
      exact Or.inl hx
    · rw [if_neg hst, List.mem_flatMap] at hp
      obtain ⟨u, hu, hp⟩ := hp
      rw [List.mem_map] at hp
      obtain ⟨q, hq, rfl⟩ := hp
      have hadj : G.adj s u = true :=
        (List.mem_filter.mp (List.mem_filter.mp hu).1).2
      rcases List.mem_cons.mp hx with rfl | hxq
      · exact Or.inl rfl
      · rcases ih u t (s :: visited) q hq x hxq with rfl | hex
        · exact Or.inr ⟨s, hadj⟩
        · exact Or.inr hex

/-- From a node without neighbours the only generated path is the trivial
one to itself. -/
theorem pathsAux_no_neighbors {G : FGraph} {s : ℕ} (h : G.neighbors s = [])
    (fuel t : ℕ) (visited : List ℕ) :
    pathsAux G fuel s t visited = if s = t then [[s]] else [] := by
  cases fuel with
  | zero => rfl
  | succ n =>
    rw [pathsAux]
    by_cases hst : s = t
    · rw [if_pos hst, if_pos hst]
    · rw [if_neg hst, if_neg hst, h]
      rfl

theorem isolated_sigmaVia {G : FGraph} {v : ℕ} (hiso : G.isolated v) (s t : ℕ)
    (hs : s ≠ v) : sigmaVia G s t v = 0 := by
  rw [sigmaVia]
  cases hd : distOpt G s t with
  | none => rfl
  | some d =>
    show ((stPaths G s t).filter
      (fun p => pathWeight G p == d && decide (v ∈ p) && v != s && v != t)).length = 0
    rw [List.length_eq_zero, List.filter_eq_nil_iff]
    intro p hp hpred
    simp only [Bool.and_eq_true, beq_iff_eq, decide_eq_true_eq, bne_iff_ne] at hpred
    obtain ⟨⟨⟨-, hvp⟩, hvs⟩, -⟩ := hpred
    rcases pathsAux_mem_adj G.nodes.length s t [] p hp v hvp with rfl | ⟨u, hadj⟩
    · exact hvs rfl
    · rw [isolated_adj_snd hiso u] at hadj
      exact Bool.false_ne_true hadj

theorem isolated_betweennessRaw {G : FGraph} {v : ℕ} (hiso : G.isolated v) :
    betweennessRaw G v = 0 := by
  rw [betweennessRaw]
  apply List.sum_eq_zero
  intro x hx
  rw [List.mem_flatMap] at hx
  obtain ⟨s, -, hx⟩ := hx
  rw [List.mem_map] at hx
  obtain ⟨t, -, rfl⟩ := hx
  by_cases hc : s ≠ v ∧ t ≠ v ∧ s ≠ t
  · rw [if_pos hc, pairDependency]
    by_cases hσ : sigma G s t = 0
    · rw [if_pos hσ]
    · rw [if_neg hσ, isolated_sigmaVia hiso s t hc.1]
      simp
  · rw [if_neg hc]

theorem isolated_betweenness {G : FGraph} {v : ℕ} (hiso : G.isolated v) :
    betweennessCentrality G v = 0 := by
  rw [betweennessCentrality, isolated_betweennessRaw hiso]
  by_cases h : 2 < G.nodes.length
  · rw [if_pos h, zero_div]
  · rw [if_neg h]

theorem isolated_spDict {G : FGraph} {v : ℕ} (hiso : G.isolated v) :
    ∀ x ∈ spDict G v, x.2 = 0 := by
  intro x hx
  rw [spDict, List.mem_filterMap] at hx
  obtain ⟨u, -, hu⟩ := hx
  rw [Option.map_eq_some'] at hu
  obtain ⟨d, hd, rfl⟩ := hu
  rw [distOpt, stPaths, pathsAux_no_neighbors (isolated_neighbors hiso)] at hd
  by_cases hvu : v = u
  · rw [if_pos hvu] at hd
    simp only [List.map_cons, List.map_nil] at hd
    have : pathWeight G [v] = 0 := rfl
    rw [this] at hd
    simp only [List.min?] at hd
    simp at hd
    simp [hd]
  · rw [if_neg hvu] at hd
    simp at hd

theorem isolated_closeness {G : FGraph} {v : ℕ} (hiso : G.isolated v) :
    closenessCentrality G v = 0 := by
  rw [closenessCentrality]
  have htot : ((spDict G v).map (fun e => e.2)).sum = 0 := by
    apply List.sum_eq_zero
    intro x hx
    rw [List.mem_map] at hx
    obtain ⟨e, he, rfl⟩ := hx
    exact isolated_spDict hiso e he
  simp only [htot]
  rw [if_neg]
  rintro ⟨h0, -⟩
  exact lt_irrefl 0 h0

theorem isolated_weightedDegree {G : FGraph} {v : ℕ} (hiso : G.isolated v) :
    weightedDegree G v = 0 := by
  rw [weightedDegree]
  by_cases he : G.edges.isEmpty
  · rw [if_pos he, isolated_degree hiso]
    simp
  · rw [if_neg he]
    have : (G.edges.map (fun e =>
        (if e.1 = v then e.2.2 else 0) + (if e.2.1 = v then e.2.2 else 0))).sum = 0 := by
      apply List.sum_eq_zero
      intro x hx
      rw [List.mem_map] at hx
      obtain ⟨e, he', rfl⟩ := hx
      rw [if_neg (hiso e he').1, if_neg (hiso e he').2]
      rfl
    rw [this]
    simp

theorem isolated_degreeCentrality {G : FGraph} {v : ℕ} (hiso : G.isolated v)
    (hn : 2 ≤ G.nodes.length) : degreeCentrality G v = 0 := by
  rw [degreeCentrality, if_neg (by omega), isolated_degree hiso]
  simp

/-- C2 (amended).  In the table returned by `compute_centralities`, every
node with no incident edge in a graph of at least two nodes has a row, and
that row carries 0 for degree centrality, betweenness, closeness and
weighted degree.  (The original claim also asserted 0 for the sole node of a
single-node graph and for eigenvector centrality; both fail, see the
counterexample below and the section comment on the eigenvector column.) -/
theorem isolated_node_centralities_zero (G : FGraph) (v : ℕ)
    (hn : 2 ≤ G.nodes.length) (hiso : G.isolated v) :
    (v ∈ G.nodes → ∃ row ∈ compute_centralities G, row.node = v) ∧
    (∀ row ∈ compute_centralities G, row.node = v →
      row.degree = 0 ∧ row.betweenness = 0 ∧ row.closeness = 0 ∧
        row.weighted_degree = 0) := by
  have hne : ¬G.nodes.length = 0 := by omega
  have hmem : ∀ r, r ∈ compute_centralities G ↔ r ∈ G.nodes.map (centRowOf G) := by
    intro r
    rw [compute_centralities, if_neg hne]
    exact (List.perm_insertionSort _ _).mem_iff
  constructor
  · intro hv
    refine ⟨centRowOf G v, ?_, rfl⟩
    rw [hmem]
    exact List.mem_map_of_mem _ hv
  · intro row hrow hnode
    rw [hmem, List.mem_map] at hrow
    obtain ⟨u, -, rfl⟩ := hrow
    have hu : u = v := hnode
    subst hu
    refine ⟨isolated_degreeCentrality hiso hn, ?_, isolated_closeness hiso,
      isolated_weightedDegree hiso⟩
    show (if G.edges.isEmpty then 0 else betweennessCentrality G u) = 0
    by_cases he : G.edges.isEmpty
    · rw [if_pos he]
    · rw [if_neg he]
      exact isolated_betweenness hiso

/-- C2 counterexample.  On the single-node graph, `compute_centralities`
gives the node degree centrality 1, not 0: `nx.degree_centrality` returns 1
for every node of a graph with at most one node, so the claim "the sole node
of a single-node graph receives 0 for degree centrality" is false. -/
theorem single_node_degree_centrality_one :
    ∃ row ∈ compute_centralities { nodes := [5], edges := [] }, row.node = 5 ∧
      row.degree = 1 ∧ row.degree ≠ 0 := by
  refine ⟨centRowOf { nodes := [5], edges := [] } 5, ?_, rfl, ?_, ?_⟩
  · rw [compute_centralities, if_neg (by norm_num)]
    rw [(List.perm_insertionSort _ _).mem_iff]
    exact List.mem_map_of_mem _ (by simp)
  · show degreeCentrality { nodes := [5], edges := [] } 5 = 1
    rw [degreeCentrality, if_pos (by norm_num)]
  · show degreeCentrality { nodes := [5], edges := [] } 5 ≠ 0
    rw [degreeCentrality, if_pos (by norm_num)]
    norm_num

/-- Witness for the amended C2 on a concrete graph: node 9 is isolated in a
three-node graph with one weighted edge, and its row is all zeros. -/
theorem isolated_node_centralities_zero_witness :
    (2 ≤ ({ nodes := [1, 2, 9], edges := [(1, 2, 3)] } : FGraph).nodes.length) ∧
    (({ nodes := [1, 2, 9], edges := [(1, 2, 3)] } : FGraph).isolated 9) ∧
    (∃ row ∈ compute_centralities { nodes := [1, 2, 9], edges := [(1, 2, 3)] },
      row.node = 9) ∧
    (∀ row ∈ compute_centralities { nodes := [1, 2, 9], edges := [(1, 2, 3)] },
      row.node = 9 → row.degree = 0 ∧ row.betweenness = 0 ∧ row.closeness = 0 ∧
        row.weighted_degree = 0) := by
  have h := isolated_node_centralities_zero { nodes := [1, 2, 9], edges := [(1, 2, 3)] } 9
    (by decide) (by decide)
  exact ⟨by decide, by decide, h.1 (by decide), h.2⟩

/-! ## detect_communities (graph_analysis.py lines 155-197)

If the graph has no nodes or no edges the function returns
`{node: 0 for node in graph.nodes()}`.  Otherwise every branch evaluates
`graph.is_weighted()` while building the arguments of the library call
(lines 174, 178 and 187) — but `networkx.Graph` has no method
`is_weighted` (the library only offers the free function
`networkx.is_weighted(G)`), so an `AttributeError` is raised before any
community algorithm runs, under either import alternative of lines 172-183.
The blanket `except Exception` at line 193 catches it and the function
returns the fallback `{node: i for i, node in enumerate(graph.nodes())}`:
each node its own singleton community.  The translation below is therefore
exact for every input, and the function indeed never raises. -/
def detect_communities (G : FGraph) : List (ℕ × ℕ) :=
  if G.nodes.length = 0 ∨ G.edges.length = 0 then
    G.nodes.map (fun v => (v, 0))
  else
    G.nodes.enum.map (fun iv => (iv.2, iv.1))

/-- C3.  `detect_communities` assigns every node of the graph exactly one
non-negative community id; the ids partition the node set (keys are exactly
the nodes, each id group is nonempty by construction, groups of one function
are pairwise disjoint); a graph with nodes but no edges gets community 0 for
every node; an empty graph gets the empty mapping; and (being a total
function) the operation never raises.  The last conjunct pins down the
exception path: on every graph with nodes and edges — exactly the graphs on
which the `AttributeError` of the section comment fires and the
`except`-fallback runs — two entries sharing a community id are one and the
same entry, so each node is indeed assigned its own singleton community. -/
theorem detect_communities_partition (G : FGraph) (hnd : G.nodes.Nodup) :
    ((detect_communities G).map (fun e => e.1) = G.nodes) ∧
    (∀ v ∈ G.nodes, ∃! c, (v, c) ∈ detect_communities G) ∧
    (∀ e ∈ detect_communities G, e.1 ∈ G.nodes) ∧
    (G.nodes = [] → detect_communities G = []) ∧
    (G.edges = [] → ∀ e ∈ detect_communities G, e.2 = 0) ∧
    (G.nodes ≠ [] → G.edges ≠ [] →
      ∀ e1 ∈ detect_communities G, ∀ e2 ∈ detect_communities G,
        e1.2 = e2.2 → e1 = e2) := by
  have hkeys : (detect_communities G).map (fun e => e.1) = G.nodes := by
    rw [detect_communities]
    by_cases h : G.nodes.length = 0 ∨ G.edges.length = 0
    · rw [if_pos h, List.map_map]
      have hco : ((fun (e : ℕ × ℕ) => e.1) ∘ (fun v => (v, 0))) = (fun (v : ℕ) => v) := rfl
      rw [hco, List.map_id']
    · rw [if_neg h, List.map_map]
      have hco : ((fun (e : ℕ × ℕ) => e.1) ∘ (fun (iv : ℕ × ℕ) => (iv.2, iv.1))) =
          Prod.snd := rfl
      rw [hco]
      exact List.enum_map_snd G.nodes
  have hinj := List.inj_on_of_nodup_map (l := detect_communities G)
    (f := fun e => e.1) (hkeys ▸ hnd)
  refine ⟨hkeys, ?_, ?_, ?_, ?_, ?_⟩
  · intro v hv
    have hvmem : v ∈ (detect_communities G).map (fun e => e.1) := hkeys ▸ hv
    rw [List.mem_map] at hvmem
    obtain ⟨e, he, hfst⟩ := hvmem
    refine ⟨e.2, ?_, ?_⟩
    · show (v, e.2) ∈ detect_communities G
      have : (v, e.2) = e := by
        rw [← hfst]
      rw [this]
      exact he
    · intro c hc
      have := hinj hc he (by rw [hfst])
      exact congrArg Prod.snd this
  · intro e he
    have := List.mem_map_of_mem (fun (e : ℕ × ℕ) => e.1) he
    rw [hkeys] at this
    exact this
  · intro h
    rw [detect_communities, if_pos (Or.inl (by simp [h])), h]
    rfl
  · intro h
    rw [detect_communities, if_pos (Or.inr (by simp [h]))]
    intro e he
    rw [List.mem_map] at he
    obtain ⟨v, -, rfl⟩ := he
    rfl
  · intro hn he e1 he1 e2 he2 heq
    have hcond : ¬(G.nodes.length = 0 ∨ G.edges.length = 0) := by
      rintro (h | h)
      · exact hn (List.length_eq_zero.mp h)
      · exact he (List.length_eq_zero.mp h)
    rw [detect_communities, if_neg hcond, List.mem_map] at he1 he2
    obtain ⟨iv1, hiv1, rfl⟩ := he1
    obtain ⟨iv2, hiv2, rfl⟩ := he2
    have hfstnodup : (G.nodes.enum.map Prod.fst).Nodup := by
      rw [List.enum_map_fst]
      exact List.nodup_range _
    have hinjfst := List.inj_on_of_nodup_map (l := G.nodes.enum)
      (f := Prod.fst) hfstnodup
    have hiv : iv1 = iv2 := hinjfst hiv1 hiv2 heq
    rw [hiv]

/-- Witness for C3 on a concrete graph with nodes and edges: the keys are
the nodes, node 9 has exactly one id, and — the exception path being taken —
entries sharing an id coincide, so every community is a singleton. -/
theorem detect_communities_partition_witness :
    (({ nodes := [1, 2, 9], edges := [(1, 2, 3)] } : FGraph).nodes.Nodup) ∧
    ((detect_communities { nodes := [1, 2, 9], edges := [(1, 2, 3)] }).map
      (fun e => e.1) = [1, 2, 9]) ∧
    (∃! c, (9, c) ∈ detect_communities { nodes := [1, 2, 9], edges := [(1, 2, 3)] }) ∧
    (∀ e1 ∈ detect_communities { nodes := [1, 2, 9], edges := [(1, 2, 3)] },
      ∀ e2 ∈ detect_communities { nodes := [1, 2, 9], edges := [(1, 2, 3)] },
        e1.2 = e2.2 → e1 = e2) := by
  have h := detect_communities_partition { nodes := [1, 2, 9], edges := [(1, 2, 3)] }
    (by decide)
  exact ⟨by decide, h.1, h.2.1 9 (by decide),
    h.2.2.2.2.2 (by decide) (by decide)⟩

/-! ### C10: skills without co-occurrence partners are absent from the graph -/

theorem compute_centralities_node_mem {G : FGraph} {row : CentRow}
    (h : row ∈ compute_centralities G) : row.node ∈ G.nodes := by
  rw [compute_centralities] at h
  by_cases hl : G.nodes.length = 0
  · rw [if_pos hl] at h
    simp at h
  · rw [if_neg hl, (List.perm_insertionSort _ _).mem_iff, List.mem_map] at h
    obtain ⟨u, hu, rfl⟩ := h
    exact hu

theorem detect_communities_mem_nodes {G : FGraph} {e : ℕ × ℕ}
    (h : e ∈ detect_communities G) : e.1 ∈ G.nodes := by
  rw [detect_communities] at h
  by_cases hc : G.nodes.length = 0 ∨ G.edges.length = 0
  · rw [if_pos hc, List.mem_map] at h
    obtain ⟨v, hv, rfl⟩ := h
    exact hv
  · rw [if_neg hc, List.mem_map] at h
    obtain ⟨iv, hiv, rfl⟩ := h
    show iv.2 ∈ G.nodes
    have := List.mem_map_of_mem Prod.snd hiv
    rwa [List.enum_map_snd] at this

/-- C10.  Every node of the co-occurrence graph has at least one incident
edge, because nodes are created only by `G.add_edge`; consequently a skill
that never appears together with another distinct (nonempty-named) skill in
any posting is absent from the node set, from the centrality table derived
from the graph, and from the community assignment. -/
theorem cooccurrence_graph_no_isolated_nodes (postings : List (List ℕ)) :
    (∀ v ∈ (build_skill_cooccurrence_graph postings).nodes,
      ∃ u, (build_skill_cooccurrence_graph postings).adj v u = true) ∧
    (∀ s, (∀ p ∈ postings, s ∈ p → ∀ t ∈ p, t ≠ 0 → t = s) →
      s ∉ (build_skill_cooccurrence_graph postings).nodes ∧
      (∀ row ∈ compute_centralities (build_skill_cooccurrence_graph postings),
        row.node ≠ s) ∧
      (∀ e ∈ detect_communities (build_skill_cooccurrence_graph postings),
        e.1 ≠ s)) := by
  have hnodes : ∀ v, v ∈ (build_skill_cooccurrence_graph postings).nodes ↔
      ∃ k ∈ cooccurrenceKeys postings, v = k.1 ∨ v = k.2 := by
    intro v
    show v ∈ ((cooccurrenceKeys postings).flatMap (fun k => [k.1, k.2])).dedup ↔ _
    rw [List.mem_dedup, List.mem_flatMap]
    constructor
    · rintro ⟨k, hk, hv⟩
      rcases List.mem_cons.mp hv with rfl | hv
      · exact ⟨k, hk, Or.inl rfl⟩
      · rcases List.mem_singleton.mp hv with rfl
        exact ⟨k, hk, Or.inr rfl⟩
    · rintro ⟨k, hk, rfl | rfl⟩
      · exact ⟨k, hk, by simp⟩
      · exact ⟨k, hk, by simp⟩
  constructor
  · intro v hv
    rw [hnodes] at hv
    obtain ⟨k, hk, hend⟩ := hv
    have hklt := cooccurrenceKeys_lt hk
    rcases hend with rfl | rfl
    · refine ⟨k.2, ?_⟩
      rw [cooccur_adj_iff]
      refine ⟨ne_of_lt hklt, ?_⟩
      rw [sortPair_eq_left (le_of_lt hklt), Prod.mk.eta]
      exact hk
    · refine ⟨k.1, ?_⟩
      rw [cooccur_adj_iff]
      refine ⟨Ne.symm (ne_of_lt hklt), ?_⟩
      rw [sortPair_eq_right hklt, Prod.mk.eta]
      exact hk
  · intro s hs
    have hnot : s ∉ (build_skill_cooccurrence_graph postings).nodes := by
      rw [hnodes]
      rintro ⟨k, hk, hend⟩
      rw [cooccurrenceKeys, List.mem_dedup, List.mem_flatMap] at hk
      obtain ⟨p, hp, hkp⟩ := hk
      rw [postingPairs, List.mem_map] at hkp
      obtain ⟨⟨x, y⟩, hxy, rfl⟩ := hkp
      have hne : x ≠ y := indexPairs_ne (normalizeSkills_nodup p) hxy
      obtain ⟨hx, hy⟩ := mem_of_mem_indexPairs hxy
      rw [mem_normalizeSkills] at hx hy
      have hends : sortPair (x, y) = (x, y) ∨ sortPair (x, y) = (y, x) := by
        rw [sortPair]
        by_cases h : x ≤ y
        · exact Or.inl (if_pos h)
        · exact Or.inr (if_neg h)
      have hsxy : s = x ∨ s = y := by
        rcases hends with h | h <;> rw [h] at hend <;> tauto
      rcases hsxy with rfl | rfl
      · exact hne (hs p hp hx.1 y hy.1 hy.2).symm
      · exact hne (hs p hp hy.1 x hx.1 hx.2)
    refine ⟨hnot, ?_, ?_⟩
    · intro row hrow heq
      exact hnot (heq ▸ compute_centralities_node_mem hrow)
    · intro e he heq
      exact hnot (heq ▸ detect_communities_mem_nodes he)

/-- Witness for C10: in the corpus `[[1,2],[3],[3,0]]`, skill 3 appears but
only alone (0 is the empty string, filtered out), so it is absent from the
co-occurrence graph, while node 1 has a neighbour. -/
theorem cooccurrence_graph_no_isolated_nodes_witness :
    (∀ p ∈ [[1, 2], [3], [3, 0]], 3 ∈ p → ∀ t ∈ p, t ≠ 0 → t = 3) ∧
    3 ∉ (build_skill_cooccurrence_graph [[1, 2], [3], [3, 0]]).nodes ∧
    1 ∈ (build_skill_cooccurrence_graph [[1, 2], [3], [3, 0]]).nodes ∧
    (∃ u, (build_skill_cooccurrence_graph [[1, 2], [3], [3, 0]]).adj 1 u = true) := by
  have h := cooccurrence_graph_no_isolated_nodes [[1, 2], [3], [3, 0]]
  exact ⟨by decide, (h.2 3 (by decide)).1, by decide, h.1 1 (by decide)⟩

/-! ## compute_skill_gap (analysis.py lines 7-104)

The scorer iterates over the posting rows, writing the computed metrics into
each row dictionary in place (`row["n_skills_job"] = ...` and so on, lines
48-86) and returning the same `rows` object together with the missing-skill
ranking.  A row is modelled with `Option`-valued metric fields: extraction
produces rows with all metrics `none`, and the scorer fills them in.
Proficiency levels are a numeric value or a label string; we model the
numeric alternative with `ℤ` (Python `int(level)` is the identity on
integers; non-integral floats are outside the model and outside the claims,
which only quantify over levels that are a "numeric value in 1-4" or a
label).  The label strings themselves are kept as Lean strings since only
four fixed literals are ever compared. -/

structure GapRow where
  skills_detected : List ℕ
  n_skills_job : Option ℕ := none
  n_skills_user_has : Option ℕ := none
  match_ratio : Option ℚ := none
  weighted_match_ratio : Option ℚ := none
  avg_skill_level : Option ℚ := none
deriving DecidableEq, Repr

inductive PyLevel where
  | num (n : ℤ)
  | label (s : String)
deriving DecidableEq, Repr

/-- Translation of the inner `get_numeric_level` (analysis.py lines 30-41)
together with the `level_name_to_numeric` mapping (lines 23-28): `none`
(absent) defaults to 4, integers are returned as-is (`int(level)`), the four
labels map to 1-4, and unknown labels default to 4. -/
def get_numeric_level (skill_levels : ℕ → Option PyLevel) (skill : ℕ) : ℤ :=
  match skill_levels skill with
  | none => 4
  | some (PyLevel.num n) => n
  | some (PyLevel.label s) =>
      if s = "Basic" then 1
      else if s = "Intermediate" then 2
      else if s = "Advanced" then 3
      else if s = "Expert" then 4
      else 4

/-- Metric update performed on one row (analysis.py lines 46-86):
`job_sk = set(row["skills_detected"])` deduplicates; the loop over `job_sk`
adds `level/4` per matched skill to `weighted_match`, and 1.0 to
`total_weight` for every skill, matched or not. -/
def updateGapRow (user_skills : List ℕ) (skill_levels : ℕ → Option PyLevel)
    (r : GapRow) : GapRow :=
  let job_sk := r.skills_detected.dedup
  let nJob := job_sk.length
  let nHas := (job_sk.filter (fun s => decide (s ∈ user_skills))).length
  let weighted_match : ℚ :=
    (job_sk.map (fun s => if s ∈ user_skills
      then ((get_numeric_level skill_levels s : ℚ) / 4) else 0)).sum
  let total_weight : ℚ := (job_sk.map (fun _ => (1 : ℚ))).sum
  let matched_levels : List ℚ :=
    (job_sk.filter (fun s => decide (s ∈ user_skills))).map
      (fun s => (get_numeric_level skill_levels s : ℚ))
  { r with
    n_skills_job := some nJob,
    n_skills_user_has := some nHas,
    match_ratio := some (if 0 < nJob then (nHas : ℚ) / (nJob : ℚ) else 0),
    weighted_match_ratio :=
      some (if 0 < total_weight then weighted_match / total_weight else 0),
    avg_skill_level :=
      some (if matched_levels.length ≠ 0
        then matched_levels.sum / (matched_levels.length : ℚ) else 0) }

/-- Aggregate missing-skill ranking (analysis.py lines 88-102): skill
frequencies over all rows with multiplicity, ranked by descending count
(`Counter.most_common`, stable on first-encounter order), keeping skills the
user lacks; each entry is (skill, count) with priority = count. -/
def computeMissing (rows : List GapRow) (user_skills : List ℕ) : List (ℕ × ℕ) :=
  let all_skills := rows.flatMap (fun r => r.skills_detected)
  let counted := all_skills.dedup.map (fun s => (s, all_skills.count s))
  let ranked := counted.insertionSort (fun a b => b.2 ≤ a.2)
  ranked.filter (fun e => decide (e.1 ∉ user_skills))

/-- Translation of `compute_skill_gap` (analysis.py lines 7-104).  The first
component is both the returned `rows` and the post-call state of the rows
passed in by the caller, because every metric is assigned into the caller's
row dictionaries in place. -/
def compute_skill_gap (rows : List GapRow) (user_skills : List ℕ)
    (skill_levels : ℕ → Option PyLevel) : List GapRow × List (ℕ × ℕ) :=
  (rows.map (updateGapRow user_skills skill_levels),
   computeMissing rows user_skills)

theorem sum_map_one_eq_length {α : Type} (l : List α) :
    (l.map (fun _ => (1 : ℚ))).sum = (l.length : ℚ) := by
  induction l with
  | nil => simp
  | cons x xs ih => simp [ih, add_comm]

/-- C5.  Every row processed by `compute_skill_gap` gets a `match_ratio`
equal to `n_skills_user_has / n_skills_job` over the deduplicated skill set,
lying in [0, 1], and equal to 0 whenever the posting has no detected
skills; the two counters are filled in accordingly. -/
theorem match_ratio_correct (rows : List GapRow) (user_skills : List ℕ)
    (skill_levels : ℕ → Option PyLevel) :
    ∀ r ∈ (compute_skill_gap rows user_skills skill_levels).1,
      r.n_skills_job = some r.skills_detected.dedup.length ∧
      r.n_skills_user_has =
        some (r.skills_detected.dedup.filter (fun s => decide (s ∈ user_skills))).length ∧
      ∃ q, r.match_ratio = some q ∧ 0 ≤ q ∧ q ≤ 1 ∧
        (r.skills_detected = [] → q = 0) ∧
        q = (if 0 < r.skills_detected.dedup.length
          then ((r.skills_detected.dedup.filter
              (fun s => decide (s ∈ user_skills))).length : ℚ) /
            (r.skills_detected.dedup.length : ℚ)
          else 0) := by
  intro r hr
  rw [compute_skill_gap] at hr
  simp only [List.mem_map] at hr
  obtain ⟨r₀, -, rfl⟩ := hr
  refine ⟨rfl, rfl, ?_⟩
  refine ⟨_, rfl, ?_, ?_, ?_, rfl⟩
  · by_cases h : 0 < r₀.skills_detected.dedup.length
    · rw [if_pos h]
      exact div_nonneg (Nat.cast_nonneg _) (Nat.cast_nonneg _)
    · rw [if_neg h]
  · by_cases h : 0 < r₀.skills_detected.dedup.length
    · rw [if_pos h]
      rw [div_le_one (by exact_mod_cast h)]
      exact_mod_cast List.length_filter_le _ _
    · rw [if_neg h]
      norm_num
  · intro hempty
    show (if 0 < (updateGapRow user_skills skill_levels r₀).skills_detected.dedup.length
      then _ else (0 : ℚ)) = 0
    have : (updateGapRow user_skills skill_levels r₀).skills_detected = [] := hempty
    rw [if_neg]
    rw [this]
    simp

/-- Witness for C5 on a concrete row with a duplicate mention. -/
theorem match_ratio_correct_witness :
    (updateGapRow [2] (fun _ => none)
        { skills_detected := [1, 2, 2] }).n_skills_job = some 2 ∧
    ∃ q, (updateGapRow [2] (fun _ => none)
        { skills_detected := [1, 2, 2] }).match_ratio = some q ∧
      0 ≤ q ∧ q ≤ 1 := by
  have h := match_ratio_correct [{ skills_detected := [1, 2, 2] }] [2] (fun _ => none)
    (updateGapRow [2] (fun _ => none) { skills_detected := [1, 2, 2] })
    (by rw [compute_skill_gap]; exact List.mem_map_of_mem _ (by simp))
  obtain ⟨h1, -, q, hq, h0, h1', -⟩ := h
  refine ⟨?_, q, hq, h0, h1'⟩
  rw [h1]
  rfl

/-- Admissible proficiency levels as the claim words them: a numeric value
in 1-4 or one of the four ordinal labels. -/
def LevelOK (l : PyLevel) : Prop :=
  (∃ n, l = PyLevel.num n ∧ 1 ≤ n ∧ n ≤ 4) ∨
  l = PyLevel.label "Basic" ∨ l = PyLevel.label "Intermediate" ∨
  l = PyLevel.label "Advanced" ∨ l = PyLevel.label "Expert"

theorem get_numeric_level_bounds {skill_levels : ℕ → Option PyLevel}
    (hlv : ∀ s l, skill_levels s = some l → LevelOK l) (s : ℕ) :
    1 ≤ get_numeric_level skill_levels s ∧ get_numeric_level skill_levels s ≤ 4 := by
  rw [get_numeric_level]
  cases h : skill_levels s with
  | none => norm_num
  | some l =>
    rcases hlv s l h with ⟨n, rfl, h1, h4⟩ | rfl | rfl | rfl | rfl
    · exact ⟨h1, h4⟩
    · decide
    · decide
    · decide
    · decide

theorem updateGapRow_wmr (u : List ℕ) (sl : ℕ → Option PyLevel) (r : GapRow) :
    (updateGapRow u sl r).weighted_match_ratio =
      some (if 0 < (r.skills_detected.dedup.map (fun _ => (1 : ℚ))).sum
        then (r.skills_detected.dedup.map (fun s => if s ∈ u
            then (get_numeric_level sl s : ℚ) / 4 else 0)).sum /
          (r.skills_detected.dedup.map (fun _ => (1 : ℚ))).sum
        else 0) := rfl

theorem updateGapRow_wmr_length (u : List ℕ) (sl : ℕ → Option PyLevel) (r : GapRow) :
    (updateGapRow u sl r).weighted_match_ratio =
      some (if 0 < r.skills_detected.dedup.length
        then (r.skills_detected.dedup.map (fun s => if s ∈ u
            then (get_numeric_level sl s : ℚ) / 4 else 0)).sum /
          (r.skills_detected.dedup.length : ℚ)
        else 0) := by
  rw [updateGapRow_wmr, sum_map_one_eq_length]
  by_cases h : 0 < r.skills_detected.dedup.length
  · rw [if_pos h, if_pos (by exact_mod_cast h)]
  · rw [if_neg h, if_neg (fun hc => h (by exact_mod_cast hc))]

theorem updateGapRow_avg (u : List ℕ) (sl : ℕ → Option PyLevel) (r : GapRow) :
    (updateGapRow u sl r).avg_skill_level =
      some (if ((r.skills_detected.dedup.filter (fun s => decide (s ∈ u))).map
          (fun s => (get_numeric_level sl s : ℚ))).length ≠ 0
        then ((r.skills_detected.dedup.filter (fun s => decide (s ∈ u))).map
            (fun s => (get_numeric_level sl s : ℚ))).sum /
          (((r.skills_detected.dedup.filter (fun s => decide (s ∈ u))).map
            (fun s => (get_numeric_level sl s : ℚ))).length : ℚ)
        else 0) := rfl

/-- C6.  Under levels that are a numeric value in 1-4 or one of the four
ordinal labels, `compute_skill_gap` fills `weighted_match_ratio` with the
sum of `level/4` over matched job skills (unmatched skills contributing 0)
divided by the deduplicated skill count, a value in [0, 1] that is 0 when
the posting has no skills; absent and unknown levels default to 4; and
`avg_skill_level` is the mean level over matched skills only, or 0 when no
skill matched. -/
theorem weighted_match_correct (rows : List GapRow) (user_skills : List ℕ)
    (skill_levels : ℕ → Option PyLevel)
    (hlv : ∀ s l, skill_levels s = some l → LevelOK l) :
    (∀ s, skill_levels s = none → get_numeric_level skill_levels s = 4) ∧
    (∀ s lbl, skill_levels s = some (PyLevel.label lbl) → lbl ≠ "Basic" →
      lbl ≠ "Intermediate" → lbl ≠ "Advanced" → lbl ≠ "Expert" →
      get_numeric_level skill_levels s = 4) ∧
    ∀ r ∈ (compute_skill_gap rows user_skills skill_levels).1,
      ∃ w a, r.weighted_match_ratio = some w ∧ r.avg_skill_level = some a ∧
        0 ≤ w ∧ w ≤ 1 ∧ (r.skills_detected = [] → w = 0) ∧
        w = (if 0 < r.skills_detected.dedup.length
          then (r.skills_detected.dedup.map (fun s => if s ∈ user_skills
              then (get_numeric_level skill_levels s : ℚ) / 4 else 0)).sum /
            (r.skills_detected.dedup.length : ℚ)
          else 0) ∧
        a = (if ((r.skills_detected.dedup.filter
              (fun s => decide (s ∈ user_skills))).map
              (fun s => (get_numeric_level skill_levels s : ℚ))).length ≠ 0
          then ((r.skills_detected.dedup.filter (fun s => decide (s ∈ user_skills))).map
              (fun s => (get_numeric_level skill_levels s : ℚ))).sum /
            (((r.skills_detected.dedup.filter (fun s => decide (s ∈ user_skills))).map
              (fun s => (get_numeric_level skill_levels s : ℚ))).length : ℚ)
          else 0) := by
  refine ⟨?_, ?_, ?_⟩
  · intro s h
    rw [get_numeric_level, h]
  · intro s lbl h h1 h2 h3 h4
    rw [get_numeric_level, h]
    show (if lbl = "Basic" then (1 : ℤ) else if lbl = "Intermediate" then 2
      else if lbl = "Advanced" then 3 else if lbl = "Expert" then 4 else 4) = 4
    rw [if_neg h1, if_neg h2, if_neg h3, if_neg h4]
  · intro r hr
    rw [compute_skill_gap] at hr
    simp only [List.mem_map] at hr
    obtain ⟨r₀, -, rfl⟩ := hr
    have hterm_nonneg : ∀ x ∈ r₀.skills_detected.dedup.map (fun s => if s ∈ user_skills
        then (get_numeric_level skill_levels s : ℚ) / 4 else 0), 0 ≤ x := by
      intro x hx
      rw [List.mem_map] at hx
      obtain ⟨s, -, rfl⟩ := hx
      by_cases hs : s ∈ user_skills
      · rw [if_pos hs]
        apply div_nonneg _ (by norm_num)
        have := (get_numeric_level_bounds hlv s).1
        have h0 : (0 : ℤ) ≤ get_numeric_level skill_levels s := by omega
        exact_mod_cast h0
      · rw [if_neg hs]
    have hterm_le_one : ∀ x ∈ r₀.skills_detected.dedup.map (fun s => if s ∈ user_skills
        then (get_numeric_level skill_levels s : ℚ) / 4 else 0), x ≤ 1 := by
      intro x hx
      rw [List.mem_map] at hx
      obtain ⟨s, -, rfl⟩ := hx
      by_cases hs : s ∈ user_skills
      · rw [if_pos hs]
        rw [div_le_one (by norm_num)]
        have := (get_numeric_level_bounds hlv s).2
        exact_mod_cast this
      · rw [if_neg hs]
        norm_num
    refine ⟨_, _, updateGapRow_wmr_length user_skills skill_levels r₀,
      updateGapRow_avg user_skills skill_levels r₀, ?_, ?_, ?_, rfl, rfl⟩
    · by_cases h : 0 < r₀.skills_detected.dedup.length
      · rw [if_pos h]
        exact div_nonneg (List.sum_nonneg hterm_nonneg) (Nat.cast_nonneg _)
      · rw [if_neg h]
    · by_cases h : 0 < r₀.skills_detected.dedup.length
      · rw [if_pos h]
        rw [div_le_one (by exact_mod_cast h)]
        have hsum := List.sum_le_card_nsmul _ (1 : ℚ) hterm_le_one
        rw [List.length_map] at hsum
        calc (r₀.skills_detected.dedup.map (fun s => if s ∈ user_skills
              then (get_numeric_level skill_levels s : ℚ) / 4 else 0)).sum
            ≤ r₀.skills_detected.dedup.length • (1 : ℚ) := hsum
          _ = (r₀.skills_detected.dedup.length : ℚ) := by
              rw [nsmul_eq_mul, mul_one]
      · rw [if_neg h]
        norm_num
    · intro hempty
      have hd : r₀.skills_detected.dedup.length = 0 := by
        have : (updateGapRow user_skills skill_levels r₀).skills_detected = [] := hempty
        have h0 : r₀.skills_detected = [] := this
        rw [h0]
        rfl
      rw [if_neg (by omega)]

/-- Witness for C6: a row with one matched skill at level Advanced (3) and
one unmatched skill; the levels map satisfies the admissibility hypothesis. -/
theorem weighted_match_correct_witness :
    (∀ s l, (fun n => if n = 2 then some (PyLevel.label "Advanced")
        else none) s = some l → LevelOK l) ∧
    ∃ w a, (updateGapRow [2] (fun n => if n = 2 then some (PyLevel.label "Advanced")
        else none) { skills_detected := [1, 2] }).weighted_match_ratio = some w ∧
      (updateGapRow [2] (fun n => if n = 2 then some (PyLevel.label "Advanced")
        else none) { skills_detected := [1, 2] }).avg_skill_level = some a ∧
      0 ≤ w ∧ w ≤ 1 := by
  have hlv : ∀ s l, (fun n => if n = 2 then some (PyLevel.label "Advanced")
      else none) s = some l → LevelOK l := by
    intro s l h
    have h' : (if s = 2 then some (PyLevel.label "Advanced") else none) = some l := h
    by_cases hs : s = 2
    · rw [if_pos hs] at h'
      obtain rfl : PyLevel.label "Advanced" = l := Option.some_inj.mp h'
      exact Or.inr (Or.inr (Or.inr (Or.inl rfl)))
    · rw [if_neg hs] at h'
      exact absurd h' (by simp)
  have h := weighted_match_correct [{ skills_detected := [1, 2] }] [2]
    (fun n => if n = 2 then some (PyLevel.label "Advanced") else none) hlv
  obtain ⟨-, -, h3⟩ := h
  obtain ⟨w, a, hw, ha, h0, h1, -⟩ := h3
    (updateGapRow [2] (fun n => if n = 2 then some (PyLevel.label "Advanced") else none)
      { skills_detected := [1, 2] })
    (by rw [compute_skill_gap]; exact List.mem_map_of_mem _ (by simp))
  exact ⟨hlv, w, a, hw, ha, h0, h1⟩

/-! ## cluster_jobs (analysis.py lines 107-176)

Rows carry a posting identifier and a (normalized) skill list.  The
standardization plus k-means pipeline (`StandardScaler().fit_transform`
followed by `KMeans(n_clusters=min(n_clusters, len(jobs_df)), ...,
n_init=10).fit_predict`, lines 163-168) is floating-point, seeded, library
code; it enters the model as the parameter `fitPredict`, constrained only by
the documented sklearn contract `KMeansSpec`: one label per sample, each
label below the requested cluster count (which must be at least 1, as
`KMeans` rejects smaller values).  Everything else is translated directly. -/

structure JobRow where
  job_id : ℕ
  skills_detected : List ℕ
deriving DecidableEq, Repr

/-- Contract of the scaler + k-means pipeline (sklearn `fit_predict`):
labels are one per sample and lie in `[0, k)`. -/
def KMeansSpec (fitPredict : ℕ → List (List ℚ) → List ℕ) : Prop :=
  ∀ k pts, 1 ≤ k → (fitPredict k pts).length = pts.length ∧
    ∀ c ∈ fitPredict k pts, c < k

/-- Translation of `cluster_jobs` (analysis.py lines 107-176), returning each
input row paired with its cluster id.  Fewer rows than clusters, or an empty
global skill set, short-circuit to cluster 0 for every row; otherwise the
binary job x skill matrix over the sorted distinct skills is built and the
pipeline labels are attached (the `matrix.shape[1] > 0` guard of line 162 is
kept even though it always holds on that branch). -/
def cluster_jobs (fitPredict : ℕ → List (List ℚ) → List ℕ)
    (jobs : List JobRow) (n_clusters : ℕ) : List (JobRow × ℕ) :=
  if jobs.length < n_clusters then jobs.map (fun r => (r, 0))
  else
    let all_skills :=
      ((jobs.flatMap (fun r => r.skills_detected)).dedup).insertionSort (· ≤ ·)
    if all_skills.length = 0 then jobs.map (fun r => (r, 0))
    else
      let matrix := jobs.map (fun r => all_skills.map (fun s =>
        if s ∈ r.skills_detected then (1 : ℚ) else 0))
      let clusters := if 0 < all_skills.length
        then fitPredict (min n_clusters jobs.length) matrix
        else List.replicate jobs.length 0
      jobs.zip clusters

/-- C4.  Under the pipeline contract and a requested cluster count of at
least 1, `cluster_jobs` keeps the rows unchanged and in order, assigns every
row a cluster id in `[0, n_clusters)`, and assigns cluster 0 to every row
whenever there are fewer rows than clusters or no skills at all — with no
failure (the function is total). -/
theorem cluster_jobs_correct (fitPredict : ℕ → List (List ℚ) → List ℕ)
    (hfp : KMeansSpec fitPredict) (jobs : List JobRow) (n_clusters : ℕ)
    (hk : 1 ≤ n_clusters) :
    ((cluster_jobs fitPredict jobs n_clusters).map Prod.fst = jobs) ∧
    (∀ e ∈ cluster_jobs fitPredict jobs n_clusters, e.2 < n_clusters) ∧
    (jobs.length < n_clusters →
      ∀ e ∈ cluster_jobs fitPredict jobs n_clusters, e.2 = 0) ∧
    (jobs.flatMap (fun r => r.skills_detected) = [] →
      ∀ e ∈ cluster_jobs fitPredict jobs n_clusters, e.2 = 0) := by
  by_cases hlt : jobs.length < n_clusters
  · rw [cluster_jobs, if_pos hlt]
    refine ⟨?_, ?_, ?_, ?_⟩
    · rw [List.map_map]
      exact List.map_id' _
    · intro e he
      rw [List.mem_map] at he
      obtain ⟨r, -, rfl⟩ := he
      exact hk
    · intro _ e he
      rw [List.mem_map] at he
      obtain ⟨r, -, rfl⟩ := he
      rfl
    · intro _ e he
      rw [List.mem_map] at he
      obtain ⟨r, -, rfl⟩ := he
      rfl
  · rw [cluster_jobs, if_neg hlt]
    by_cases hsk :
        (((jobs.flatMap (fun r => r.skills_detected)).dedup).insertionSort (· ≤ ·)).length = 0
    · rw [if_pos hsk]
      refine ⟨?_, ?_, ?_, ?_⟩
      · rw [List.map_map]
        exact List.map_id' _
      · intro e he
        rw [List.mem_map] at he
        obtain ⟨r, -, rfl⟩ := he
        exact hk
      · intro _ e he
        rw [List.mem_map] at he
        obtain ⟨r, -, rfl⟩ := he
        rfl
      · intro _ e he
        rw [List.mem_map] at he
        obtain ⟨r, -, rfl⟩ := he
        rfl
    · rw [if_neg hsk]
      have hpos :
          0 < (((jobs.flatMap (fun r => r.skills_detected)).dedup).insertionSort (· ≤ ·)).length :=
        Nat.pos_of_ne_zero hsk
      simp only [if_pos hpos]
      have hkk : 1 ≤ min n_clusters jobs.length := by
        rw [not_lt] at hlt
        omega
      have hcon := hfp (min n_clusters jobs.length)
        (jobs.map (fun r =>
          (((jobs.flatMap (fun r => r.skills_detected)).dedup).insertionSort (· ≤ ·)).map
            (fun s => if s ∈ r.skills_detected then (1 : ℚ) else 0))) hkk
      have hlen : (fitPredict (min n_clusters jobs.length)
          (jobs.map (fun r =>
            (((jobs.flatMap (fun r => r.skills_detected)).dedup).insertionSort (· ≤ ·)).map
              (fun s => if s ∈ r.skills_detected then (1 : ℚ) else 0)))).length =
          jobs.length := by
        rw [hcon.1, List.length_map]
      refine ⟨?_, ?_, ?_, ?_⟩
      · exact List.map_fst_zip _ _ (le_of_eq hlen.symm)
      · intro e he
        obtain ⟨a, b⟩ := e
        have hmem := (List.of_mem_zip he).2
        have hc := hcon.2 b hmem
        calc b < min n_clusters jobs.length := hc
          _ ≤ n_clusters := min_le_left _ _
      · intro hcontra
        exact absurd hcontra hlt
      · intro hflat
        exfalso
        apply hsk
        rw [hflat]
        rfl

/-- Witness for C4: two postings, four requested clusters, a pipeline that
satisfies the contract; both rows land in cluster 0. -/
theorem cluster_jobs_correct_witness :
    KMeansSpec (fun _ pts => pts.map (fun _ => 0)) ∧
    (1 ≤ 4) ∧
    ((cluster_jobs (fun _ pts => pts.map (fun _ => 0))
        [{ job_id := 1, skills_detected := [5] },
         { job_id := 2, skills_detected := [6] }] 4).map Prod.fst =
      [{ job_id := 1, skills_detected := [5] },
       { job_id := 2, skills_detected := [6] }]) ∧
    (∀ e ∈ cluster_jobs (fun _ pts => pts.map (fun _ => 0))
        [{ job_id := 1, skills_detected := [5] },
         { job_id := 2, skills_detected := [6] }] 4, e.2 = 0) := by
  have hfp : KMeansSpec (fun _ pts => pts.map (fun _ => 0)) := by
    intro k pts hk
    refine ⟨List.length_map _ _, ?_⟩
    intro c hc
    rw [List.mem_map] at hc
    obtain ⟨-, -, rfl⟩ := hc
    omega
  have h := cluster_jobs_correct (fun _ pts => pts.map (fun _ => 0)) hfp
    [{ job_id := 1, skills_detected := [5] },
     { job_id := 2, skills_detected := [6] }] 4 (by omega)
  exact ⟨hfp, by omega, h.1, h.2.2.1 (by decide)⟩

/-! ## build_bipartite_graph (graph_analysis.py lines 12-42)

For each row with a truthy `job_id`, the function adds the job node with
attribute `node_type="job"`, then one node with `node_type="skill"` and one
edge per truthy skill.  `networkx.Graph.add_node` on an existing node
overwrites its attributes, so a name used both as a job identifier and as a
skill ends up with whichever attribute was written last — the model folds
the attribute writes in program order.  Edges are modelled as the list of
(job, skill) pairs added (networkx deduplicates repeated `add_edge` calls;
only membership is quoted below, for which the two representations agree).
Rows are modelled after list/str normalization of the skill field (lines
30-35). -/

inductive NodeType where
  | job
  | skill
deriving DecidableEq, Repr

/-- One attribute write: `B.add_node(x, node_type=t)`. -/
def setNodeAttr (f : ℕ → Option NodeType) (x : ℕ) (t : NodeType) : ℕ → Option NodeType :=
  fun y => if y = x then some t else f y

/-- Attribute writes performed by one row (graph_analysis.py lines 25-40). -/
def addRowNodes (f : ℕ → Option NodeType) (r : JobRow) : ℕ → Option NodeType :=
  if r.job_id ≠ 0 then
    (r.skills_detected.filter (fun s => decide (s ≠ 0))).foldl
      (fun g s => setNodeAttr g s NodeType.skill)
      (setNodeAttr f r.job_id NodeType.job)
  else f

/-- The `node_type` attribute map of the graph built by
`build_bipartite_graph`. -/
def build_bipartite_graph_nodeType (jobs : List JobRow) : ℕ → Option NodeType :=
  jobs.foldl addRowNodes (fun _ => none)

/-- The edges added by `build_bipartite_graph` (one `(job_id, skill)` pair
per truthy skill of each truthy-id row, graph_analysis.py line 40). -/
def build_bipartite_graph_edges (jobs : List JobRow) : List (ℕ × ℕ) :=
  jobs.flatMap (fun r => if r.job_id ≠ 0
    then (r.skills_detected.filter (fun s => decide (s ≠ 0))).map (fun s => (r.job_id, s))
    else [])

theorem skillFold_apply (ss : List ℕ) (f : ℕ → Option NodeType) (x : ℕ) :
    (ss.foldl (fun g s => setNodeAttr g s NodeType.skill) f) x =
      if x ∈ ss then some NodeType.skill else f x := by
  induction ss generalizing f with
  | nil => simp
  | cons s rest ih =>
    rw [List.foldl_cons, ih]
    by_cases hx : x ∈ rest
    · rw [if_pos hx, if_pos (List.mem_cons_of_mem s hx)]
    · rw [if_neg hx]
      by_cases hxs : x = s
      · rw [if_pos (hxs ▸ List.mem_cons_self s rest)]
        show (if x = s then some NodeType.skill else f x) = some NodeType.skill
        rw [if_pos hxs]
      · rw [if_neg (by
          rw [List.mem_cons]
          rintro (h | h)
          · exact hxs h
          · exact hx h)]
        show (if x = s then some NodeType.skill else f x) = f x
        rw [if_neg hxs]

theorem addRowNodes_apply {r : JobRow} (hid : r.job_id ≠ 0)
    (f : ℕ → Option NodeType) (x : ℕ) :
    addRowNodes f r x =
      if x ∈ r.skills_detected.filter (fun s => decide (s ≠ 0)) then some NodeType.skill
      else if x = r.job_id then some NodeType.job
      else f x := by
  rw [addRowNodes, if_pos hid, skillFold_apply]
  by_cases hx : x ∈ r.skills_detected.filter (fun s => decide (s ≠ 0))
  · rw [if_pos hx, if_pos hx]
  · rw [if_neg hx, if_neg hx]
    rfl

/-- Skills of a row batch, after truthiness filtering. -/
def batchSkills (jobs : List JobRow) : List ℕ :=
  jobs.flatMap (fun r => r.skills_detected.filter (fun s => decide (s ≠ 0)))

theorem build_bipartite_nodeType_apply (jobs : List JobRow)
    (hids : ∀ r ∈ jobs, r.job_id ≠ 0)
    (hdisj : ∀ r ∈ jobs, ∀ s ∈ batchSkills jobs, s ≠ r.job_id) :
    ∀ (f : ℕ → Option NodeType) (x : ℕ),
      jobs.foldl addRowNodes f x =
        if x ∈ batchSkills jobs then some NodeType.skill
        else if x ∈ jobs.map (fun r => r.job_id) then some NodeType.job
        else f x := by
  induction jobs with
  | nil => intro f x; simp [batchSkills]
  | cons r rest ih =>
    intro f x
    have hid : r.job_id ≠ 0 := hids r (by simp)
    have hids' : ∀ r' ∈ rest, r'.job_id ≠ 0 := fun r' h => hids r' (by simp [h])
    have hsub : ∀ s ∈ batchSkills rest, s ∈ batchSkills (r :: rest) := by
      intro s hs
      rw [batchSkills, List.flatMap_cons, List.mem_append]
      exact Or.inr hs
    have hsubr : ∀ s ∈ r.skills_detected.filter (fun t => decide (t ≠ 0)),
        s ∈ batchSkills (r :: rest) := by
      intro s hs
      rw [batchSkills, List.flatMap_cons, List.mem_append]
      exact Or.inl hs
    have hdisj' : ∀ r' ∈ rest, ∀ s ∈ batchSkills rest, s ≠ r'.job_id := by
      intro r' hr' s hs
      exact hdisj r' (by simp [hr']) s (hsub s hs)
    rw [List.foldl_cons, ih hids' hdisj']
    by_cases hrest : x ∈ batchSkills rest
    · rw [if_pos hrest, if_pos (hsub x hrest)]
    · rw [if_neg hrest]
      by_cases hidrest : x ∈ rest.map (fun r' => r'.job_id)
      · rw [if_pos hidrest]
        have hxnot : x ∉ batchSkills (r :: rest) := by
          intro hx
          rw [List.mem_map] at hidrest
          obtain ⟨r', hr', rfl⟩ := hidrest
          exact hdisj r' (by simp [hr']) _ hx rfl
        rw [if_neg hxnot, if_pos]
        rw [List.mem_map] at hidrest ⊢
        obtain ⟨r', hr', h⟩ := hidrest
        exact ⟨r', by simp [hr'], h⟩
      · rw [if_neg hidrest, addRowNodes_apply hid]
        by_cases hxr : x ∈ r.skills_detected.filter (fun s => decide (s ≠ 0))
        · rw [if_pos hxr, if_pos (hsubr x hxr)]
        · rw [if_neg hxr]
          have hxnot : x ∉ batchSkills (r :: rest) := by
            rw [batchSkills, List.flatMap_cons, List.mem_append]
            rintro (h | h)
            · exact hxr h
            · exact hrest h
          rw [if_neg hxnot]
          by_cases hxid : x = r.job_id
          · rw [if_pos hxid, if_pos (by
              rw [List.mem_map]
              exact ⟨r, by simp, hxid.symm⟩)]
          · rw [if_neg hxid, if_neg (by
              rw [List.mem_map]
              rintro ⟨r', hr', h⟩
              rw [List.mem_cons] at hr'
              rcases hr' with rfl | hr'
              · exact hxid h.symm
              · exact hidrest (List.mem_map.mpr ⟨r', hr', h⟩))]

/-- C8 (amended).  When every posting identifier is nonempty and no detected
skill name coincides with any posting identifier, the graph built by
`build_bipartite_graph` has exactly the posting identifiers as job nodes and
exactly the detected (nonempty-named) skills as skill nodes, and every edge
joins a job node to a skill node detected in that very posting.  (Without
the disjointness hypothesis the invariant fails: `add_node` overwrites the
`node_type` attribute, see the counterexample.) -/
theorem bipartite_graph_two_kinds (jobs : List JobRow)
    (hids : ∀ r ∈ jobs, r.job_id ≠ 0)
    (hdisj : ∀ r ∈ jobs, ∀ s ∈ batchSkills jobs, s ≠ r.job_id) :
    (∀ x, build_bipartite_graph_nodeType jobs x = some NodeType.job ↔
      x ∈ jobs.map (fun r => r.job_id)) ∧
    (∀ x, build_bipartite_graph_nodeType jobs x = some NodeType.skill ↔
      x ∈ batchSkills jobs) ∧
    (∀ e ∈ build_bipartite_graph_edges jobs,
      build_bipartite_graph_nodeType jobs e.1 = some NodeType.job ∧
      build_bipartite_graph_nodeType jobs e.2 = some NodeType.skill ∧
      ∃ r ∈ jobs, e.1 = r.job_id ∧ e.2 ∈ r.skills_detected) := by
  have happ := build_bipartite_nodeType_apply jobs hids hdisj (fun _ => none)
  have hjob : ∀ x, build_bipartite_graph_nodeType jobs x = some NodeType.job ↔
      x ∈ jobs.map (fun r => r.job_id) := by
    intro x
    rw [build_bipartite_graph_nodeType, happ x]
    constructor
    · intro h
      by_cases h1 : x ∈ batchSkills jobs
      · rw [if_pos h1] at h
        exact absurd (Option.some_inj.mp h) (by simp)
      · rw [if_neg h1] at h
        by_cases h2 : x ∈ jobs.map (fun r => r.job_id)
        · exact h2
        · rw [if_neg h2] at h
          exact absurd h (by simp)
    · intro h
      have h1 : x ∉ batchSkills jobs := by
        rw [List.mem_map] at h
        obtain ⟨r, hr, rfl⟩ := h
        intro hx
        exact hdisj r hr _ hx rfl
      rw [if_neg h1, if_pos h]
  have hskill : ∀ x, build_bipartite_graph_nodeType jobs x = some NodeType.skill ↔
      x ∈ batchSkills jobs := by
    intro x
    rw [build_bipartite_graph_nodeType, happ x]
    constructor
    · intro h
      by_cases h1 : x ∈ batchSkills jobs
      · exact h1
      · rw [if_neg h1] at h
        by_cases h2 : x ∈ jobs.map (fun r => r.job_id)
        · rw [if_pos h2] at h
          exact absurd (Option.some_inj.mp h) (by simp)
        · rw [if_neg h2] at h
          exact absurd h (by simp)
    · intro h
      rw [if_pos h]
  refine ⟨hjob, hskill, ?_⟩
  intro e he
  rw [build_bipartite_graph_edges, List.mem_flatMap] at he
  obtain ⟨r, hr, he⟩ := he
  have hid : r.job_id ≠ 0 := hids r hr
  rw [if_pos hid, List.mem_map] at he
  obtain ⟨s, hs, rfl⟩ := he
  refine ⟨?_, ?_, r, hr, rfl, ?_⟩
  · exact (hjob _).mpr (List.mem_map.mpr ⟨r, hr, rfl⟩)
  · exact (hskill _).mpr (by
      rw [batchSkills, List.mem_flatMap]
      exact ⟨r, hr, hs⟩)
  · exact (List.mem_filter.mp hs).1

/-- C8 counterexample.  A skill name equal to a later posting identifier has
its `node_type` overwritten to `"job"`, so the edge added for the first
posting joins two nodes both carrying `node_type="job"` — the claimed
invariant "no edge connects two nodes of the same kind" fails on the code
as written. -/
theorem bipartite_same_kind_edge_counterexample :
    (1, 7) ∈ build_bipartite_graph_edges
      [{ job_id := 1, skills_detected := [7] },
       { job_id := 7, skills_detected := [2] }] ∧
    build_bipartite_graph_nodeType
      [{ job_id := 1, skills_detected := [7] },
       { job_id := 7, skills_detected := [2] }] 1 = some NodeType.job ∧
    build_bipartite_graph_nodeType
      [{ job_id := 1, skills_detected := [7] },
       { job_id := 7, skills_detected := [2] }] 7 = some NodeType.job := by
  refine ⟨?_, ?_, ?_⟩ <;> decide

/-- Witness for the amended C8 on a well-behaved corpus. -/
theorem bipartite_graph_two_kinds_witness :
    (∀ x, build_bipartite_graph_nodeType
      [{ job_id := 1, skills_detected := [7, 8] },
       { job_id := 2, skills_detected := [7] }] x = some NodeType.job ↔
      x ∈ [1, 2]) ∧
    (∀ e ∈ build_bipartite_graph_edges
      [{ job_id := 1, skills_detected := [7, 8] },
       { job_id := 2, skills_detected := [7] }],
      build_bipartite_graph_nodeType
        [{ job_id := 1, skills_detected := [7, 8] },
         { job_id := 2, skills_detected := [7] }] e.1 = some NodeType.job ∧
      build_bipartite_graph_nodeType
        [{ job_id := 1, skills_detected := [7, 8] },
         { job_id := 2, skills_detected := [7] }] e.2 = some NodeType.skill) := by
  have h := bipartite_graph_two_kinds
    [{ job_id := 1, skills_detected := [7, 8] },
     { job_id := 2, skills_detected := [7] }]
    (by decide) (by decide)
  constructor
  · intro x
    rw [h.1 x]
    show x ∈ [1, 2] ↔ x ∈ [1, 2]
    exact Iff.rfl
  · intro e he
    obtain ⟨h1, h2, -⟩ := h.2.2 e he
    exact ⟨h1, h2⟩

/-! ## get_bridge_skills (graph_analysis.py lines 222-238)

The centrality table arrives as a pandas frame: a column-name list plus the
rows.  `nlargest(top_n, "betweenness")` is the first `top_n` rows of the
stable descending sort on the betweenness column (`keep="first"`), then the
result is projected to (node, betweenness, degree); a frame without a
betweenness column yields the empty frame. -/

structure CentTable where
  cols : List String
  rows : List CentRow
deriving Repr

structure BridgeRow where
  node : ℕ
  betweenness : ℚ
  degree : ℚ
deriving DecidableEq, Repr

/-- Projection of a centrality row to the three reported columns. -/
def projBridge (r : CentRow) : BridgeRow :=
  { node := r.node, betweenness := r.betweenness, degree := r.degree }

/-- Translation of `get_bridge_skills` (graph_analysis.py lines 222-238). -/
def get_bridge_skills (t : CentTable) (top_n : ℕ) : List BridgeRow :=
  if "betweenness" ∈ t.cols then
    ((t.rows.insertionSort (fun a b => b.betweenness ≤ a.betweenness)).take top_n).map
      projBridge
  else []

/-- C9.  `get_bridge_skills` returns the `n` rows of largest betweenness,
projected to (node, betweenness, degree) and sorted by descending
betweenness; a table with fewer than `n` rows yields all of its rows; and a
table without a betweenness column yields the empty table instead of an
error. -/
theorem get_bridge_skills_correct (t : CentTable) (n : ℕ) :
    ("betweenness" ∉ t.cols → get_bridge_skills t n = []) ∧
    ("betweenness" ∈ t.cols →
      (get_bridge_skills t n).length = min n t.rows.length ∧
      (get_bridge_skills t n).Sorted (fun a b => b.betweenness ≤ a.betweenness) ∧
      ∃ rest, (t.rows.map projBridge).Perm (get_bridge_skills t n ++ rest) ∧
        ∀ x ∈ get_bridge_skills t n, ∀ y ∈ rest, y.betweenness ≤ x.betweenness) := by
  constructor
  · intro h
    rw [get_bridge_skills, if_neg h]
  · intro h
    haveI htot : IsTotal CentRow (fun a b => b.betweenness ≤ a.betweenness) :=
      ⟨fun a b => le_total b.betweenness a.betweenness⟩
    haveI htrans : IsTrans CentRow (fun a b => b.betweenness ≤ a.betweenness) :=
      ⟨fun a b c hab hbc => le_trans hbc hab⟩
    have hsorted := List.sorted_insertionSort
      (fun (a b : CentRow) => b.betweenness ≤ a.betweenness) t.rows
    have hperm := List.perm_insertionSort
      (fun (a b : CentRow) => b.betweenness ≤ a.betweenness) t.rows
    rw [get_bridge_skills, if_pos h]
    refine ⟨?_, ?_, ?_⟩
    · rw [List.length_map, List.length_take, hperm.length_eq]
    · rw [List.Sorted]
      rw [List.pairwise_map]
      exact List.Pairwise.sublist (List.take_sublist _ _) hsorted
    · refine ⟨((t.rows.insertionSort
        (fun a b => b.betweenness ≤ a.betweenness)).drop n).map projBridge, ?_, ?_⟩
      · have hsplit : (t.rows.insertionSort (fun a b => b.betweenness ≤ a.betweenness)).map
            projBridge =
            ((t.rows.insertionSort (fun a b => b.betweenness ≤ a.betweenness)).take n).map
              projBridge ++
            ((t.rows.insertionSort (fun a b => b.betweenness ≤ a.betweenness)).drop n).map
              projBridge := by
          rw [← List.map_append, List.take_append_drop]
        rw [← hsplit]
        exact (hperm.map projBridge).symm
      · intro x hx y hy
        rw [List.mem_map] at hx hy
        obtain ⟨ax, hax, rfl⟩ := hx
        obtain ⟨ay, hay, rfl⟩ := hy
        have hall : List.Pairwise (fun a b => b.betweenness ≤ a.betweenness)
            ((t.rows.insertionSort (fun a b => b.betweenness ≤ a.betweenness)).take n ++
             (t.rows.insertionSort (fun a b => b.betweenness ≤ a.betweenness)).drop n) := by
          rw [List.take_append_drop]
          exact hsorted
        have hcross := (List.pairwise_append.mp hall).2.2
        exact hcross ax hax ay hay

/-- Witness for C9: a three-column table with two rows and `n = 5` larger
than the row count returns both rows, sorted by descending betweenness. -/
theorem get_bridge_skills_correct_witness :
    ("betweenness" ∈ (["node", "betweenness", "degree"] : List String)) ∧
    (get_bridge_skills
      { cols := ["node", "betweenness", "degree"],
        rows := [{ node := 1, degree := 0, betweenness := 5, closeness := 0,
                   weighted_degree := 0 },
                 { node := 2, degree := 0, betweenness := 7, closeness := 0,
                   weighted_degree := 0 }] } 5).length = 2 ∧
    (get_bridge_skills
      { cols := ["node", "betweenness", "degree"],
        rows := [{ node := 1, degree := 0, betweenness := 5, closeness := 0,
                   weighted_degree := 0 },
                 { node := 2, degree := 0, betweenness := 7, closeness := 0,
                   weighted_degree := 0 }] } 5).Sorted
      (fun a b => b.betweenness ≤ a.betweenness) := by
  have hm : "betweenness" ∈ (["node", "betweenness", "degree"] : List String) := by
    decide
  have h := (get_bridge_skills_correct
    { cols := ["node", "betweenness", "degree"],
      rows := [{ node := 1, degree := 0, betweenness := 5, closeness := 0,
                 weighted_degree := 0 },
               { node := 2, degree := 0, betweenness := 7, closeness := 0,
                 weighted_degree := 0 }] } 5).2 hm
  exact ⟨hm, h.1, h.2.1⟩

/-! ## interpret_clusters (analysis.py lines 179-212)

For every distinct cluster id (ascending), the summary row carries the id,
the member count and the five most frequent skills of the cluster
(`Counter.most_common(5)`, stable descending sort on first-encounter keys).
The `avg_match_ratio` column averages an optional input column and is
floating point; no claim quotes it and it is left out of the model. -/
def interpret_clusters (jobs : List (JobRow × ℕ)) : List (ℕ × ℕ × List ℕ) :=
  ((jobs.map (fun e => e.2)).dedup.insertionSort (· ≤ ·)).map (fun cid =>
    (cid,
     (jobs.filter (fun e => e.2 == cid)).length,
     ((((jobs.filter (fun e => e.2 == cid)).flatMap
          (fun e => e.1.skills_detected)).dedup.map (fun s =>
            (s, ((jobs.filter (fun e => e.2 == cid)).flatMap
              (fun e => e.1.skills_detected)).count s))).insertionSort
        (fun a b => b.2 ≤ a.2)).take 5 |>.map (fun e => e.1)))

/-! ## Mutation analysis (C7)

Which engine operations change the data the caller passed in?  For each
operation we record the post-call state of its input, read off the source:

* `compute_skill_gap` assigns every metric into the caller's row
  dictionaries (`row["n_skills_job"] = ...` etc., analysis.py lines 48, 51,
  70, 76, 83) and returns the same `rows` object, so the post-call state of
  the caller's rows is the updated rows.
* `cluster_jobs` rebinds `jobs_df = jobs_df.copy()` before the only column
  assignment on its short-circuit branches (lines 121-122, 137-138) and
  assigns into `result_df = jobs_df.copy()` on the main branch (lines
  173-174); the caller's frame is never written.
* `interpret_clusters` only reads its input (lines 189-212).
* `build_bipartite_graph` and `build_skill_cooccurrence_graph` only read
  the frame and write into freshly created graphs (lines 22-42, 57-82). -/

def compute_skill_gap_rowsAfter (rows : List GapRow) (user_skills : List ℕ)
    (skill_levels : ℕ → Option PyLevel) : List GapRow :=
  (compute_skill_gap rows user_skills skill_levels).1

def cluster_jobs_inputAfter (jobs : List JobRow) : List JobRow := jobs

def interpret_clusters_inputAfter (jobs : List (JobRow × ℕ)) : List (JobRow × ℕ) := jobs

def build_bipartite_graph_inputAfter (jobs : List JobRow) : List JobRow := jobs

def build_skill_cooccurrence_graph_inputAfter (postings : List (List ℕ)) :
    List (List ℕ) := postings

/-- C7 counterexample.  `compute_skill_gap` does mutate its input: the
caller's posting record acquires the metric fields, so the post-call state
of the rows differs from the rows that were passed in. -/
theorem compute_skill_gap_mutates :
    compute_skill_gap_rowsAfter [{ skills_detected := [1] }] [] (fun _ => none) ≠
      [{ skills_detected := [1] }] := by
  intro h
  have h1 : updateGapRow [] (fun _ => none) { skills_detected := [1] } =
      ({ skills_detected := [1] } : GapRow) := by
    have h0 := congrArg List.head? h
    simpa [compute_skill_gap_rowsAfter, compute_skill_gap] using h0
  have h2 := congrArg GapRow.n_skills_job h1
  simp [updateGapRow] at h2

/-- C7 (amended).  `cluster_jobs`, `interpret_clusters`,
`build_bipartite_graph` and `build_skill_cooccurrence_graph` leave the
postings collection and every posting record unchanged, returning fresh
result structures; `compute_skill_gap`, however, writes the match metrics
into the caller's posting records in place and returns those same records,
so any row that still lacks a metric field is necessarily changed by the
call. -/
theorem engine_mutation_status :
    (∀ jobs, cluster_jobs_inputAfter jobs = jobs) ∧
    (∀ jobs, interpret_clusters_inputAfter jobs = jobs) ∧
    (∀ jobs, build_bipartite_graph_inputAfter jobs = jobs) ∧
    (∀ postings, build_skill_cooccurrence_graph_inputAfter postings = postings) ∧
    (∀ rows user_skills skill_levels,
      compute_skill_gap_rowsAfter rows user_skills skill_levels =
        rows.map (updateGapRow user_skills skill_levels)) ∧
    (∀ rows user_skills skill_levels,
      ∀ r ∈ compute_skill_gap_rowsAfter rows user_skills skill_levels,
        r.n_skills_job ≠ none) ∧
    (∀ rows user_skills skill_levels r, r ∈ rows → r.n_skills_job = none →
      compute_skill_gap_rowsAfter rows user_skills skill_levels ≠ rows) := by
  have hfilled : ∀ (rows : List GapRow) (user_skills : List ℕ)
      (skill_levels : ℕ → Option PyLevel),
      ∀ r ∈ compute_skill_gap_rowsAfter rows user_skills skill_levels,
        r.n_skills_job ≠ none := by
    intro rows user_skills skill_levels r hr
    rw [compute_skill_gap_rowsAfter, compute_skill_gap] at hr
    simp only [List.mem_map] at hr
    obtain ⟨r₀, -, rfl⟩ := hr
    intro hcontra
    exact absurd hcontra (by simp [updateGapRow])
  refine ⟨fun _ => rfl, fun _ => rfl, fun _ => rfl, fun _ => rfl, fun _ _ _ => rfl,
    hfilled, ?_⟩
  intro rows user_skills skill_levels r hr hnone heq
  have : r ∈ compute_skill_gap_rowsAfter rows user_skills skill_levels := by
    rw [heq]
    exact hr
  exact hfilled rows user_skills skill_levels r this hnone

/-- Witness for the amended C7 at a concrete pristine row. -/
theorem engine_mutation_status_witness :
    (cluster_jobs_inputAfter [{ job_id := 1, skills_detected := [5] }] =
      [{ job_id := 1, skills_detected := [5] }]) ∧
    (compute_skill_gap_rowsAfter [{ skills_detected := [1] }] [] (fun _ => none) ≠
      [{ skills_detected := [1] }]) := by
  have h := engine_mutation_status
  refine ⟨h.1 _, ?_⟩
  exact h.2.2.2.2.2.2 [{ skills_detected := [1] }] [] (fun _ => none)
    { skills_detected := [1] } (by simp) rfl
